import Mathlib

/-!
# Verification of the WB-L0 LRU cache core

A shallow embedding of the repository's caching core, consisting of

* `internal/cache/lru_cache/list` (`lru_list.go`): a sentinel-based circular
  doubly-linked list (`LRUList`, `LRUListNode`), and
* `internal/cache/lru_cache/lru_cache.go`: the bounded LRU cache
  (`LRUCache`) pairing that list with a key-to-node lookup map.

Modelling conventions:

* Go pointers to nodes become `Option NodeId` (`none` = Go `nil`); the node
  heap is a function `NodeId → Option LRUListNode`, threaded through every
  operation.  The sentinel (`root`) always lives at id `0`.  Allocation
  (`&LRUListNode{...}`) draws a fresh id from `nextId`.
* The program only ever creates one list per cache, so the `node.list`
  back-pointer field is modelled as a `Bool`: `true` for "points to the
  (unique) list", `false` for Go `nil`.
* A Go nil-pointer dereference (a runtime panic) is modelled explicitly:
  list operations return `GRes`, which has a dedicated `panic` constructor,
  and cache operations return `Option` results where `none` means the
  operation panicked instead of completing.
* The mutexes serialize whole operations, so a single-threaded state-passing
  semantics is the faithful sequential meaning of each operation.
* The Go `map[K]*LRUListNode` becomes an association list with unique keys;
  `m[k] = v` is erase-then-cons and `delete(m, k)` is a filter, which agree
  with Go map semantics on every observation the code makes (lookup, length,
  and range - range order is irrelevant to the final state of `Flush`, the
  only ranging operation, because the node removals commute).

All machine integers (`len`, `capacity`) are `Int`, like Go `int` (overflow
is unreachable at these magnitudes and is not modelled).
-/

set_option autoImplicit false

namespace WBL0

/-- Node ids for the heap of list nodes.  The sentinel (`root`) is id `0`. -/
abbrev NodeId := Nat

/-- The three error values of the `list` package:
`ErrRoot`, `ErrNotInList`, `ErrIsListElem`. -/
inductive LErr where
  | root
  | notInList
  | isListElem
deriving DecidableEq, Repr

/-- `LRUListNode[K, V]`: `next`/`prev` pointers, the `list` back-pointer
(modelled as `Bool`, see module docstring), and the key/value payload. -/
structure LRUListNode (K V : Type) where
  next : Option NodeId
  prev : Option NodeId
  list : Bool
  key : K
  value : V
deriving DecidableEq

/-- `LRUList[K, V]`: the node heap (sentinel at id 0), the allocator
counter, and the `len` field. -/
structure LRUList (K V : Type) where
  nodes : NodeId → Option (LRUListNode K V)
  nextId : NodeId
  len : Int

variable {K V : Type}

/-- The sentinel node as set up by `NewLRUList`: `root.next = root.prev = &root`,
`root.list = &l`, zero-valued key and value. -/
def rootNode [Inhabited K] [Inhabited V] : LRUListNode K V :=
  { next := some 0, prev := some 0, list := true, key := default, value := default }

/-- `NewLRUList()`: empty list, only the sentinel allocated. -/
def NewLRUList [Inhabited K] [Inhabited V] : LRUList K V :=
  { nodes := fun i => if i = 0 then some rootNode else none
    nextId := 1
    len := 0 }

/-- Read of `node.prev.Load()` for the node at id `i`
(`none` = node not allocated, which no reachable execution performs). -/
def prevOf (l : LRUList K V) (i : NodeId) : Option (Option NodeId) :=
  (l.nodes i).map (·.prev)

/-- Read of `node.next.Load()` for the node at id `i`. -/
def nextOf (l : LRUList K V) (i : NodeId) : Option (Option NodeId) :=
  (l.nodes i).map (·.next)

/-- `node.list.Load() == l`, i.e. the node at id `i` is owned by the list. -/
def attachedB (l : LRUList K V) (i : NodeId) : Bool :=
  match l.nodes i with
  | some n => n.list
  | none => false

/-- `node.next.Store v` on the node at id `i`. -/
def setNext (l : LRUList K V) (i : NodeId) (v : Option NodeId) : LRUList K V :=
  match l.nodes i with
  | some n => { l with nodes := fun j => if j = i then some { n with next := v } else l.nodes j }
  | none => l

/-- `node.prev.Store v` on the node at id `i`. -/
def setPrev (l : LRUList K V) (i : NodeId) (v : Option NodeId) : LRUList K V :=
  match l.nodes i with
  | some n => { l with nodes := fun j => if j = i then some { n with prev := v } else l.nodes j }
  | none => l

/-- `node.list.Store` on the node at id `i` (`true` = `&l`, `false` = `nil`). -/
def setOwner (l : LRUList K V) (i : NodeId) (b : Bool) : LRUList K V :=
  match l.nodes i with
  | some n => { l with nodes := fun j => if j = i then some { n with list := b } else l.nodes j }
  | none => l

/-- `NewLRUListNode(key, value, list, next, prev)`: allocates a node and
returns its id together with the grown heap. -/
def NewLRUListNode (l : LRUList K V) (key : K) (value : V) (listb : Bool)
    (next prev : Option NodeId) : NodeId × LRUList K V :=
  (l.nextId,
   { l with
      nodes := fun j => if j = l.nextId then some ⟨next, prev, listb, key, value⟩ else l.nodes j
      nextId := l.nextId + 1 })

/-- `node.Next()`: returns `node.next` unless the owner is nil or the
neighbour is the owner's sentinel. -/
def NodeNext (l : LRUList K V) (i : NodeId) : Option NodeId :=
  match l.nodes i with
  | some node => if node.list ∧ node.next ≠ some 0 then node.next else none
  | none => none

/-- `node.Prev()`: returns `node.prev` unless the owner is nil or the
neighbour is the owner's sentinel. -/
def NodePrev (l : LRUList K V) (i : NodeId) : Option NodeId :=
  match l.nodes i with
  | some node => if node.list ∧ node.prev ≠ some 0 then node.prev else none
  | none => none

/-- `l.Front()`: `l.root.Prev()`. -/
def Front (l : LRUList K V) : Option NodeId := NodePrev l 0

/-- `l.Back()`: `l.root.Next()`. -/
def Back (l : LRUList K V) : Option NodeId := NodeNext l 0

/-- Result of a list operation that returns `(*LRUListNode, error)`:
either a node and the new list state, or a non-nil error and the list
state, or a runtime panic (nil dereference). -/
inductive GRes (K V : Type) (α : Type) where
  | ok : α → LRUList K V → GRes K V α
  | err : LErr → LRUList K V → GRes K V α
  | panic : GRes K V α

/-- `l.insert(node, at)`: attach the node at id `node` immediately after
the node at id `at_` (both are Go pointers, hence `Option`).  Reproduces
the source's checks and store order exactly. -/
def insert (l : LRUList K V) (node at_ : Option NodeId) : GRes K V NodeId :=
  match node with
  | none => .panic
  | some nid =>
    match l.nodes nid with
    | none => .panic
    | some n =>
      if n.list ∨ n.next ≠ none ∨ n.prev ≠ none then .err .isListElem l
      else
        match at_ with
        | none => .panic
        | some aid =>
          match l.nodes aid with
          | none => .panic
          | some a =>
            if ¬a.list then .err .notInList l
            else
              -- node.list.Store(l)
              let l1 := setOwner l nid true
              -- next := at.next.Load()
              match nextOf l1 aid with
              | none => .panic
              | some next =>
                -- at.next.Store(node); node.prev.Store(at); node.next.Store(next)
                let l2 := setNext l1 aid (some nid)
                let l3 := setPrev l2 nid (some aid)
                let l4 := setNext l3 nid next
                -- next.prev.Store(node)
                match next with
                | none => .panic
                | some nxid =>
                  let l5 := setPrev l4 nxid (some nid)
                  .ok nid { l5 with len := l5.len + 1 }

/-- `l.Insert(key, value, at)`: allocate a fresh detached node, then `insert`. -/
def Insert (l : LRUList K V) (key : K) (value : V) (at_ : Option NodeId) :
    GRes K V NodeId :=
  let p := NewLRUListNode l key value false none none
  insert p.2 (some p.1) at_

/-- `l.pushFront(node)`: `l.insert(node, l.root.prev.Load())`. -/
def pushFront (l : LRUList K V) (node : Option NodeId) : GRes K V NodeId :=
  match prevOf l 0 with
  | none => .panic
  | some rp => insert l node rp

/-- `l.pushBack(node)`: `l.insert(node, &l.root)`. -/
def pushBack (l : LRUList K V) (node : Option NodeId) : GRes K V NodeId :=
  insert l node (some 0)

/-- `l.PushFront(key, value)`: allocate and push; the `insert` error is
discarded (`n, _ := l.pushFront(node)`), so on failure the returned node
pointer is nil.  Outer `none` = panic. -/
def PushFront (l : LRUList K V) (key : K) (value : V) :
    Option (Option NodeId × LRUList K V) :=
  let p := NewLRUListNode l key value false none none
  match pushFront p.2 (some p.1) with
  | .ok n l' => some (some n, l')
  | .err _ l' => some (none, l')
  | .panic => none

/-- `l.PushBack(key, value)`: allocate and push back, error discarded. -/
def PushBack (l : LRUList K V) (key : K) (value : V) :
    Option (Option NodeId × LRUList K V) :=
  let p := NewLRUListNode l key value false none none
  match pushBack p.2 (some p.1) with
  | .ok n l' => some (some n, l')
  | .err _ l' => some (none, l')
  | .panic => none

/-- `l.Remove(at)`: detach the node `at` points to.  A nil `at` panics at
`at.list.Load()`.  Checks and store order follow the source. -/
def Remove (l : LRUList K V) (at_ : Option NodeId) : GRes K V NodeId :=
  match at_ with
  | none => .panic
  | some aid =>
    match l.nodes aid with
    | none => .panic
    | some a =>
      if ¬a.list then .err .notInList l
      else if aid = 0 then .err .root l
      else
        -- at.prev.Load().next.Store(at.next.Load())
        match a.prev with
        | none => .panic
        | some pid =>
          let l1 := setNext l pid a.next
          -- at.next.Load().prev.Store(at.prev.Load())  (re-reads the heap)
          match nextOf l1 aid, prevOf l1 aid with
          | some anext, some aprev =>
            match anext with
            | none => .panic
            | some qid =>
              let l2 := setPrev l1 qid aprev
              -- at.next.Store(nil); at.prev.Store(nil); at.list.Store(nil)
              let l3 := setNext l2 aid none
              let l4 := setPrev l3 aid none
              let l5 := setOwner l4 aid false
              .ok aid { l5 with len := l5.len - 1 }
          | _, _ => .panic

/-- `l.PopFront()`: `l.Remove(l.Front())`. -/
def PopFront (l : LRUList K V) : GRes K V NodeId := Remove l (Front l)

/-- `l.PopBack()`: `l.Remove(l.Back())`. -/
def PopBack (l : LRUList K V) : GRes K V NodeId := Remove l (Back l)

/-- `l.MoveToFront(at)`: `Remove` then `pushFront`, propagating errors. -/
def MoveToFront (l : LRUList K V) (at_ : Option NodeId) : GRes K V Unit :=
  match Remove l at_ with
  | .panic => .panic
  | .err e l' => .err e l'
  | .ok nid l' =>
    match pushFront l' (some nid) with
    | .panic => .panic
    | .err e l'' => .err e l''
    | .ok _ l'' => .ok () l''

/-- `l.Size()`: the `len` field. -/
def LSize (l : LRUList K V) : Int := l.len

/-- `l.Empty()`: `l.len == 0`. -/
def LEmpty (l : LRUList K V) : Bool := l.len = 0

/-! ## The cache (`lru_cache.go`) -/

/-- `map[K]*LRUListNode[K, V]` as an association list with unique keys.
Values are `Option NodeId` because the code can (in principle) store the
nil pointer returned by a failed `PushFront`. -/
abbrev NodeMap (K : Type) := List (K × Option NodeId)

/-- Go map read `node, ok := m[key]`: `none` = absent (`ok == false`). -/
def mapLookup [DecidableEq K] : NodeMap K → K → Option (Option NodeId)
  | [], _ => none
  | (k', v) :: rest, k => if k = k' then some v else mapLookup rest k

/-- Go `delete(m, key)`.  On unique-key maps, filtering out the key is
exactly Go's single-entry deletion. -/
def mapErase [DecidableEq K] (m : NodeMap K) (k : K) : NodeMap K :=
  m.filter fun p => decide (p.1 ≠ k)

/-- Go map write `m[key] = v` (replace or add). -/
def mapAssign [DecidableEq K] (m : NodeMap K) (k : K) (v : Option NodeId) : NodeMap K :=
  (k, v) :: mapErase m k

/-- `LRUCache[K, V]`: the list, the lookup map, and the fixed capacity.
The mutex serializes operations and has no sequential content. -/
structure LRUCache (K V : Type) where
  lruList : LRUList K V
  cache : NodeMap K
  capacity : Int

/-- `NewLRUCache(capacity)`: rejects negative capacity, otherwise builds
an empty cache. -/
def NewLRUCache [Inhabited K] [Inhabited V] (capacity : Int) :
    Except String (LRUCache K V) :=
  if capacity < 0 then .error "expected positive number for capacity"
  else .ok { lruList := NewLRUList, cache := [], capacity := capacity }

/-- `c.Set(key, value)`.  `none` = the operation panicked (nil dereference
inside a list call or at `node.Key` after a failed `PopBack`). -/
def Set [DecidableEq K] (c : LRUCache K V) (key : K) (value : V) :
    Option (LRUCache K V) :=
  -- node, ok := c.cache[key]; if ok { c.lruList.Remove(node) }  (result discarded)
  let step1 : Option (LRUList K V) :=
    match mapLookup c.cache key with
    | some node =>
      match Remove c.lruList node with
      | .ok _ l' => some l'
      | .err _ l' => some l'
      | .panic => none
    | none => some c.lruList
  match step1 with
  | none => none
  | some l1 =>
    -- if c.lruList.Size() == c.capacity { node, _ := c.lruList.PopBack(); delete(c.cache, node.Key) }
    let step2 : Option (LRUList K V × NodeMap K) :=
      if l1.len = c.capacity then
        match PopBack l1 with
        | .ok nid l2 =>
          match l2.nodes nid with
          | some n => some (l2, mapErase c.cache n.key)
          | none => none
        | .err _ _ => none   -- node is nil, `node.Key` dereferences nil
        | .panic => none
      else some (l1, c.cache)
    match step2 with
    | none => none
    | some (l2, m2) =>
      -- node = c.lruList.PushFront(key, value); c.cache[key] = node
      match PushFront l2 key value with
      | none => none
      | some (nodeP, l3) =>
        some { lruList := l3, cache := mapAssign m2 key nodeP, capacity := c.capacity }

/-- `c.Get(key)`: `(new state, value, ok)`; `none` = panic.  On a hit the
node is moved to the front (the `MoveToFront` error is discarded) and its
`Value` field is returned; on a miss the zero value and `false`. -/
def Get [DecidableEq K] [Inhabited V] (c : LRUCache K V) (key : K) :
    Option (LRUCache K V × V × Bool) :=
  match mapLookup c.cache key with
  | some node =>
    match MoveToFront c.lruList node with
    | .panic => none
    | .ok _ l' | .err _ l' =>
      match node with
      | some nid =>
        match l'.nodes nid with
        | some n => some ({ c with lruList := l' }, n.value, true)
        | none => none
      | none => none
  | none => some (c, default, false)

/-- The `error` returned by `c.Delete`: the `NotFound` `fmt.Errorf`, or an
error propagated from `l.Remove`. -/
inductive DErr where
  | notFound
  | listErr (e : LErr)
deriving DecidableEq, Repr

/-- `c.Delete(key)`: `(new state, returned error)`; `none` = panic.  The
map entry is deleted even when `Remove` reports an error. -/
def Delete [DecidableEq K] (c : LRUCache K V) (key : K) :
    Option (LRUCache K V × Option DErr) :=
  match mapLookup c.cache key with
  | none => some (c, some .notFound)
  | some node =>
    match Remove c.lruList node with
    | .panic => none
    | .ok _ l' =>
      some ({ lruList := l', cache := mapErase c.cache key, capacity := c.capacity }, none)
    | .err e l' =>
      some ({ lruList := l', cache := mapErase c.cache key, capacity := c.capacity },
            some (.listErr e))

/-- `c.Contains(key)`: map membership, no state change. -/
def Contains [DecidableEq K] (c : LRUCache K V) (key : K) : Bool :=
  (mapLookup c.cache key).isSome

/-- The `for _, node := range c.cache { c.lruList.Remove(node) }` loop of
`Flush` (removal errors discarded, panic propagates). -/
def flushLoop (l : LRUList K V) : NodeMap K → Option (LRUList K V)
  | [] => some l
  | (_, node) :: rest =>
    match Remove l node with
    | .ok _ l' => flushLoop l' rest
    | .err _ l' => flushLoop l' rest
    | .panic => none

/-- `c.Flush()`: remove every indexed node, then `clear(c.cache)`. -/
def Flush [DecidableEq K] (c : LRUCache K V) : Option (LRUCache K V) :=
  match flushLoop c.lruList c.cache with
  | none => none
  | some l' => some { lruList := l', cache := [], capacity := c.capacity }

/-- `c.Size()`: `c.lruList.Size()`. -/
def Size (c : LRUCache K V) : Int := c.lruList.len

/-- `c.Capacity()`. -/
def Capacity (c : LRUCache K V) : Int := c.capacity

/-- `c.Empty()`: `c.lruList.Size() == 0`. -/
def CEmpty (c : LRUCache K V) : Bool := c.lruList.len = 0

/-! ## Operation sequences -/

/-- One public cache operation (used to express reachability). -/
inductive CacheOp (K V : Type) where
  | set (k : K) (v : V)
  | get (k : K)
  | del (k : K)
  | contains (k : K)
  | flush

/-- Run one operation, keeping only the state; `none` = the operation
panicked (did not complete). -/
def step [DecidableEq K] [Inhabited V] (c : LRUCache K V) :
    CacheOp K V → Option (LRUCache K V)
  | .set k v => Set c k v
  | .get k => (Get c k).map (·.1)
  | .del k => (Delete c k).map (·.1)
  | .contains _ => some c
  | .flush => Flush c

/-- Run a sequence of operations; `none` as soon as one panics. -/
def runOps [DecidableEq K] [Inhabited V] (c : LRUCache K V) :
    List (CacheOp K V) → Option (LRUCache K V)
  | [] => some c
  | op :: ops =>
    match step c op with
    | none => none
    | some c' => runOps c' ops

/-- Fresh cache of the given capacity, then a sequence of operations
(`none` = invalid capacity or a panic along the way). -/
def afterOps [DecidableEq K] [Inhabited K] [Inhabited V] (capacity : Int)
    (ops : List (CacheOp K V)) : Option (LRUCache K V) :=
  match NewLRUCache (K := K) (V := V) capacity with
  | .ok c => runOps c ops
  | .error _ => none

/-! ## Well-formedness of a list state

`chainTo l a xs z` says the circular structure holds: `a.prev` points at the
first member of `xs` (or at `z` when `xs = []`), consecutive members are
doubly linked, and the last member's `prev` is `z` whose `next` closes the
cycle.  The list invariant is `chainTo l 0 ids 0`, where `ids` are the real
nodes in front-to-back order (`root.prev` is the front, `root.next` the
back, matching `pushFront`/`pushBack`). -/

/-- `a.prev == &b`. -/
def prevIs (l : LRUList K V) (a b : NodeId) : Prop := prevOf l a = some (some b)

/-- `a.next == &b`. -/
def nextIs (l : LRUList K V) (a b : NodeId) : Prop := nextOf l a = some (some b)

/-- `a` and `b` are adjacent: `a.prev == &b` and `b.next == &a`. -/
def linked (l : LRUList K V) (a b : NodeId) : Prop := prevIs l a b ∧ nextIs l b a

instance (l : LRUList K V) (a b : NodeId) : Decidable (prevIs l a b) :=
  inferInstanceAs (Decidable (_ = _))

instance (l : LRUList K V) (a b : NodeId) : Decidable (nextIs l a b) :=
  inferInstanceAs (Decidable (_ = _))

instance (l : LRUList K V) (a b : NodeId) : Decidable (linked l a b) :=
  inferInstanceAs (Decidable (_ ∧ _))

/-- The doubly-linked chain from `a` through `xs` ending at `z`. -/
def chainTo (l : LRUList K V) : NodeId → List NodeId → NodeId → Prop
  | a, [], z => linked l a z
  | a, b :: bs, z => linked l a b ∧ chainTo l b bs z

theorem chainTo_nil {l : LRUList K V} {a z : NodeId} :
    chainTo l a [] z ↔ linked l a z := Iff.rfl

theorem chainTo_cons {l : LRUList K V} {a b z : NodeId} {bs : List NodeId} :
    chainTo l a (b :: bs) z ↔ linked l a b ∧ chainTo l b bs z := Iff.rfl

def chainToDec (l : LRUList K V) :
    (a : NodeId) → (xs : List NodeId) → (z : NodeId) → Decidable (chainTo l a xs z)
  | a, [], z => inferInstanceAs (Decidable (linked l a z))
  | a, b :: bs, z =>
    haveI : Decidable (chainTo l b bs z) := chainToDec l b bs z
    inferInstanceAs (Decidable (linked l a b ∧ chainTo l b bs z))

instance (l : LRUList K V) (a : NodeId) (xs : List NodeId) (z : NodeId) :
    Decidable (chainTo l a xs z) := chainToDec l a xs z

/-- Well-formed list state with real nodes `ids` in front-to-back order. -/
def WF (l : LRUList K V) (ids : List NodeId) : Prop :=
  attachedB l 0 = true ∧
  (∀ i ∈ ids, attachedB l i = true) ∧
  (∀ i ∈ ids, i ≠ 0) ∧
  (∀ i ∈ ids, i < l.nextId) ∧
  0 < l.nextId ∧
  ids.Nodup ∧
  l.len = (ids.length : Int) ∧
  chainTo l 0 ids 0

/-- `node.Key` of the node at id `i` (`default` on an unallocated id). -/
def keyOf [Inhabited K] (l : LRUList K V) (i : NodeId) : K :=
  match l.nodes i with
  | some n => n.key
  | none => default

/-- `node.Value` of the node at id `i`. -/
def valOf [Inhabited V] (l : LRUList K V) (i : NodeId) : V :=
  match l.nodes i with
  | some n => n.value
  | none => default

/-- The lookup table determined by the list order: one entry per linked
node, keyed by that node's `Key` field. -/
def tblOf [Inhabited K] (l : LRUList K V) (ids : List NodeId) : NodeMap K :=
  ids.map fun i => (keyOf l i, some i)

/-- Invariant tying a cache state to the front-to-back node order `ids`:
the list is well-formed on `ids`, the map is (a permutation of) the
per-node table, node keys are pairwise distinct, and the size respects
the capacity. -/
def CacheInv [DecidableEq K] [Inhabited K] (c : LRUCache K V) (ids : List NodeId) : Prop :=
  WF c.lruList ids ∧
  c.cache.Perm (tblOf c.lruList ids) ∧
  (ids.map (keyOf c.lruList)).Nodup ∧
  0 ≤ c.capacity ∧
  c.lruList.len ≤ c.capacity

/-! ## Frame lemmas for the heap mutators -/

theorem nodes_setNext (l : LRUList K V) (i : NodeId) (v : Option NodeId) (j : NodeId) :
    (setNext l i v).nodes j =
      if j = i then (l.nodes i).map (fun n => { n with next := v }) else l.nodes j := by
  unfold setNext
  cases h : l.nodes i with
  | none =>
    simp only [h, Option.map_none']
    split
    · next hj => rw [hj, h]
    · rfl
  | some n => simp [h]

theorem nodes_setPrev (l : LRUList K V) (i : NodeId) (v : Option NodeId) (j : NodeId) :
    (setPrev l i v).nodes j =
      if j = i then (l.nodes i).map (fun n => { n with prev := v }) else l.nodes j := by
  unfold setPrev
  cases h : l.nodes i with
  | none =>
    simp only [h, Option.map_none']
    split
    · next hj => rw [hj, h]
    · rfl
  | some n => simp [h]

theorem nodes_setOwner (l : LRUList K V) (i : NodeId) (b : Bool) (j : NodeId) :
    (setOwner l i b).nodes j =
      if j = i then (l.nodes i).map (fun n => { n with list := b }) else l.nodes j := by
  unfold setOwner
  cases h : l.nodes i with
  | none =>
    simp only [h, Option.map_none']
    split
    · next hj => rw [hj, h]
    · rfl
  | some n => simp [h]

@[simp] theorem len_setNext (l : LRUList K V) (i : NodeId) (v : Option NodeId) :
    (setNext l i v).len = l.len := by
  unfold setNext; cases l.nodes i <;> rfl

@[simp] theorem len_setPrev (l : LRUList K V) (i : NodeId) (v : Option NodeId) :
    (setPrev l i v).len = l.len := by
  unfold setPrev; cases l.nodes i <;> rfl

@[simp] theorem len_setOwner (l : LRUList K V) (i : NodeId) (b : Bool) :
    (setOwner l i b).len = l.len := by
  unfold setOwner; cases l.nodes i <;> rfl

@[simp] theorem nextId_setNext (l : LRUList K V) (i : NodeId) (v : Option NodeId) :
    (setNext l i v).nextId = l.nextId := by
  unfold setNext; cases l.nodes i <;> rfl

@[simp] theorem nextId_setPrev (l : LRUList K V) (i : NodeId) (v : Option NodeId) :
    (setPrev l i v).nextId = l.nextId := by
  unfold setPrev; cases l.nodes i <;> rfl

@[simp] theorem nextId_setOwner (l : LRUList K V) (i : NodeId) (b : Bool) :
    (setOwner l i b).nextId = l.nextId := by
  unfold setOwner; cases l.nodes i <;> rfl

theorem isSome_nodes_setNext (l : LRUList K V) (i : NodeId) (v : Option NodeId) (j : NodeId) :
    ((setNext l i v).nodes j).isSome = (l.nodes j).isSome := by
  rw [nodes_setNext]
  by_cases h : j = i
  · subst h; rw [if_pos rfl]; cases l.nodes j <;> rfl
  · rw [if_neg h]

theorem isSome_nodes_setPrev (l : LRUList K V) (i : NodeId) (v : Option NodeId) (j : NodeId) :
    ((setPrev l i v).nodes j).isSome = (l.nodes j).isSome := by
  rw [nodes_setPrev]
  by_cases h : j = i
  · subst h; rw [if_pos rfl]; cases l.nodes j <;> rfl
  · rw [if_neg h]

theorem isSome_nodes_setOwner (l : LRUList K V) (i : NodeId) (b : Bool) (j : NodeId) :
    ((setOwner l i b).nodes j).isSome = (l.nodes j).isSome := by
  rw [nodes_setOwner]
  by_cases h : j = i
  · subst h; rw [if_pos rfl]; cases l.nodes j <;> rfl
  · rw [if_neg h]

theorem prevOf_setNext (l : LRUList K V) (i : NodeId) (v : Option NodeId) (j : NodeId) :
    prevOf (setNext l i v) j = prevOf l j := by
  unfold prevOf
  rw [nodes_setNext]
  by_cases hj : j = i
  · subst hj; rw [if_pos rfl]; cases l.nodes j <;> rfl
  · rw [if_neg hj]

theorem nextOf_setPrev (l : LRUList K V) (i : NodeId) (v : Option NodeId) (j : NodeId) :
    nextOf (setPrev l i v) j = nextOf l j := by
  unfold nextOf
  rw [nodes_setPrev]
  by_cases hj : j = i
  · subst hj; rw [if_pos rfl]; cases l.nodes j <;> rfl
  · rw [if_neg hj]

theorem prevOf_setOwner (l : LRUList K V) (i : NodeId) (b : Bool) (j : NodeId) :
    prevOf (setOwner l i b) j = prevOf l j := by
  unfold prevOf
  rw [nodes_setOwner]
  by_cases hj : j = i
  · subst hj; rw [if_pos rfl]; cases l.nodes j <;> rfl
  · rw [if_neg hj]

theorem nextOf_setOwner (l : LRUList K V) (i : NodeId) (b : Bool) (j : NodeId) :
    nextOf (setOwner l i b) j = nextOf l j := by
  unfold nextOf
  rw [nodes_setOwner]
  by_cases hj : j = i
  · subst hj; rw [if_pos rfl]; cases l.nodes j <;> rfl
  · rw [if_neg hj]

theorem nextOf_setNext_ne (l : LRUList K V) {i j : NodeId} (v : Option NodeId)
    (h : j ≠ i) : nextOf (setNext l i v) j = nextOf l j := by
  unfold nextOf; rw [nodes_setNext, if_neg h]

theorem nextOf_setNext_self (l : LRUList K V) {i : NodeId} {n : LRUListNode K V}
    (hn : l.nodes i = some n) (v : Option NodeId) :
    nextOf (setNext l i v) i = some v := by
  unfold nextOf; rw [nodes_setNext, if_pos rfl, hn]; rfl

theorem prevOf_setPrev_ne (l : LRUList K V) {i j : NodeId} (v : Option NodeId)
    (h : j ≠ i) : prevOf (setPrev l i v) j = prevOf l j := by
  unfold prevOf; rw [nodes_setPrev, if_neg h]

theorem prevOf_setPrev_self (l : LRUList K V) {i : NodeId} {n : LRUListNode K V}
    (hn : l.nodes i = some n) (v : Option NodeId) :
    prevOf (setPrev l i v) i = some v := by
  unfold prevOf; rw [nodes_setPrev, if_pos rfl, hn]; rfl

theorem attachedB_setNext (l : LRUList K V) (i : NodeId) (v : Option NodeId) (j : NodeId) :
    attachedB (setNext l i v) j = attachedB l j := by
  unfold attachedB
  rw [nodes_setNext]
  by_cases hj : j = i
  · subst hj; rw [if_pos rfl]; cases l.nodes j <;> rfl
  · rw [if_neg hj]

theorem attachedB_setPrev (l : LRUList K V) (i : NodeId) (v : Option NodeId) (j : NodeId) :
    attachedB (setPrev l i v) j = attachedB l j := by
  unfold attachedB
  rw [nodes_setPrev]
  by_cases hj : j = i
  · subst hj; rw [if_pos rfl]; cases l.nodes j <;> rfl
  · rw [if_neg hj]

theorem attachedB_setOwner_ne (l : LRUList K V) {i j : NodeId} (b : Bool)
    (h : j ≠ i) : attachedB (setOwner l i b) j = attachedB l j := by
  unfold attachedB; rw [nodes_setOwner, if_neg h]

theorem keyOf_setNext [Inhabited K] (l : LRUList K V) (i : NodeId) (v : Option NodeId)
    (j : NodeId) : keyOf (setNext l i v) j = keyOf l j := by
  unfold keyOf
  rw [nodes_setNext]
  by_cases hj : j = i
  · subst hj; rw [if_pos rfl]; cases l.nodes j <;> rfl
  · rw [if_neg hj]

theorem keyOf_setPrev [Inhabited K] (l : LRUList K V) (i : NodeId) (v : Option NodeId)
    (j : NodeId) : keyOf (setPrev l i v) j = keyOf l j := by
  unfold keyOf
  rw [nodes_setPrev]
  by_cases hj : j = i
  · subst hj; rw [if_pos rfl]; cases l.nodes j <;> rfl
  · rw [if_neg hj]

theorem keyOf_setOwner [Inhabited K] (l : LRUList K V) (i : NodeId) (b : Bool)
    (j : NodeId) : keyOf (setOwner l i b) j = keyOf l j := by
  unfold keyOf
  rw [nodes_setOwner]
  by_cases hj : j = i
  · subst hj; rw [if_pos rfl]; cases l.nodes j <;> rfl
  · rw [if_neg hj]

theorem valOf_setNext [Inhabited V] (l : LRUList K V) (i : NodeId) (v : Option NodeId)
    (j : NodeId) : valOf (setNext l i v) j = valOf l j := by
  unfold valOf
  rw [nodes_setNext]
  by_cases hj : j = i
  · subst hj; rw [if_pos rfl]; cases l.nodes j <;> rfl
  · rw [if_neg hj]

theorem valOf_setPrev [Inhabited V] (l : LRUList K V) (i : NodeId) (v : Option NodeId)
    (j : NodeId) : valOf (setPrev l i v) j = valOf l j := by
  unfold valOf
  rw [nodes_setPrev]
  by_cases hj : j = i
  · subst hj; rw [if_pos rfl]; cases l.nodes j <;> rfl
  · rw [if_neg hj]

theorem valOf_setOwner [Inhabited V] (l : LRUList K V) (i : NodeId) (b : Bool)
    (j : NodeId) : valOf (setOwner l i b) j = valOf l j := by
  unfold valOf
  rw [nodes_setOwner]
  by_cases hj : j = i
  · subst hj; rw [if_pos rfl]; cases l.nodes j <;> rfl
  · rw [if_neg hj]

/-! ## Chain lemmas -/

theorem chainTo_append {l : LRUList K V} {a z b : NodeId} (xs ys : List NodeId) :
    chainTo l a (xs ++ b :: ys) z ↔ chainTo l a xs b ∧ chainTo l b ys z := by
  induction xs generalizing a with
  | nil => simp [chainTo]
  | cons x xs ih => simp [chainTo, ih, and_assoc]

theorem chainTo_snoc {l : LRUList K V} {a z y : NodeId} (xs : List NodeId) :
    chainTo l a (xs ++ [y]) z ↔ chainTo l a xs y ∧ linked l y z := by
  simpa [chainTo] using chainTo_append (l := l) (a := a) (z := z) (b := y) xs []

/-- The chain only reads `prev` of `a :: xs` and `next` of `xs ++ [z]`;
states agreeing there have the same chain. -/
theorem chainTo_frame {l l' : LRUList K V} {a z : NodeId} {xs : List NodeId}
    (h : chainTo l a xs z)
    (hprev : ∀ x ∈ a :: xs, prevOf l' x = prevOf l x)
    (hnext : ∀ x ∈ xs ++ [z], nextOf l' x = nextOf l x) :
    chainTo l' a xs z := by
  induction xs generalizing a with
  | nil =>
    obtain ⟨h1, h2⟩ := h
    refine ⟨?_, ?_⟩
    · unfold prevIs at h1 ⊢
      rw [hprev a (by simp)]; exact h1
    · unfold nextIs at h2 ⊢
      rw [hnext z (by simp)]; exact h2
  | cons b bs ih =>
    obtain ⟨⟨h1, h2⟩, h3⟩ := h
    refine ⟨⟨?_, ?_⟩, ?_⟩
    · unfold prevIs at h1 ⊢
      rw [hprev a (by simp)]; exact h1
    · unfold nextIs at h2 ⊢
      rw [hnext b (by simp)]; exact h2
    · exact ih h3 (fun x hx => hprev x (by simpa using Or.inr hx))
        (fun x hx => hnext x (by simp at hx ⊢; tauto))

/-! ## The heap effect of `Remove` and `insert`

`spliceOut`/`spliceIn` name the exact sequence of stores the source
performs, so that `Remove`/`insert` can be rewritten into them once their
guards are discharged. -/

/-- The stores of a successful `Remove` of node `i` whose `prev` is `c`
and whose `next` is `a'`. -/
def spliceOut (l : LRUList K V) (c a' i : NodeId) : LRUList K V :=
  let l1 := setNext l c (some a')
  let l2 := setPrev l1 a' (some c)
  let l3 := setNext l2 i none
  let l4 := setPrev l3 i none
  let l5 := setOwner l4 i false
  { l5 with len := l5.len - 1 }

/-- The stores of a successful `insert` of node `nid` after node `aid`
whose `next` is `nx`. -/
def spliceIn (l : LRUList K V) (nid aid nx : NodeId) : LRUList K V :=
  let l1 := setOwner l nid true
  let l2 := setNext l1 aid (some nid)
  let l3 := setPrev l2 nid (some aid)
  let l4 := setNext l3 nid (some nx)
  let l5 := setPrev l4 nx (some nid)
  { l5 with len := l5.len + 1 }

theorem Remove_eq {l : LRUList K V} {i : NodeId} {n : LRUListNode K V}
    (hn : l.nodes i = some n) (hl : n.list = true) (hi0 : i ≠ 0)
    {c a' : NodeId} (hp : n.prev = some c) (hx : n.next = some a') (hic : i ≠ c) :
    Remove l (some i) = .ok i (spliceOut l c a' i) := by
  unfold Remove
  dsimp only
  rw [hn]
  dsimp only
  rw [if_neg (by simp [hl]), if_neg hi0, hp]
  dsimp only
  rw [hx]
  have h1 : nextOf (setNext l c (some a')) i = some (some a') := by
    rw [nextOf_setNext_ne _ _ hic]
    simp [nextOf, hn, hx]
  have h2 : prevOf (setNext l c (some a')) i = some (some c) := by
    rw [prevOf_setNext]
    simp [prevOf, hn, hp]
  rw [h1, h2]
  dsimp only
  rfl

theorem insert_eq {l : LRUList K V} {nid aid : NodeId} {n a : LRUListNode K V}
    (hn : l.nodes nid = some n) (hfl : n.list = false) (hfn : n.next = none)
    (hfp : n.prev = none) (ha : l.nodes aid = some a) (hal : a.list = true)
    {nx : NodeId} (hnx : a.next = some nx) :
    insert l (some nid) (some aid) = .ok nid (spliceIn l nid aid nx) := by
  unfold insert
  dsimp only
  rw [hn]
  dsimp only
  rw [if_neg (by simp [hfl, hfn, hfp]), ha]
  dsimp only
  rw [if_neg (by simp [hal])]
  have h1 : nextOf (setOwner l nid true) aid = some (some nx) := by
    rw [nextOf_setOwner]
    simp [nextOf, ha, hnx]
  rw [h1]
  dsimp only
  rfl

@[simp] theorem len_spliceOut (l : LRUList K V) (c a' i : NodeId) :
    (spliceOut l c a' i).len = l.len - 1 := by
  simp [spliceOut]

@[simp] theorem nextId_spliceOut (l : LRUList K V) (c a' i : NodeId) :
    (spliceOut l c a' i).nextId = l.nextId := by
  simp [spliceOut]

@[simp] theorem len_spliceIn (l : LRUList K V) (nid aid nx : NodeId) :
    (spliceIn l nid aid nx).len = l.len + 1 := by
  simp [spliceIn]

@[simp] theorem nextId_spliceIn (l : LRUList K V) (nid aid nx : NodeId) :
    (spliceIn l nid aid nx).nextId = l.nextId := by
  simp [spliceIn]

theorem prevOf_spliceOut_ne (l : LRUList K V) {c a' i j : NodeId}
    (hja : j ≠ a') (hji : j ≠ i) : prevOf (spliceOut l c a' i) j = prevOf l j := by
  show prevOf (setOwner _ i false) j = _
  rw [prevOf_setOwner, prevOf_setPrev_ne _ _ hji, prevOf_setNext,
    prevOf_setPrev_ne _ _ hja, prevOf_setNext]

theorem prevOf_spliceOut_target (l : LRUList K V) {c a' i : NodeId}
    (ha : (l.nodes a').isSome) (hai : a' ≠ i) :
    prevOf (spliceOut l c a' i) a' = some (some c) := by
  show prevOf (setOwner _ i false) a' = _
  rw [prevOf_setOwner, prevOf_setPrev_ne _ _ hai, prevOf_setNext]
  have : ((setNext l c (some a')).nodes a').isSome := by
    rw [isSome_nodes_setNext]; exact ha
  obtain ⟨m, hm⟩ := Option.isSome_iff_exists.mp this
  exact prevOf_setPrev_self _ hm _

theorem prevOf_spliceOut_i (l : LRUList K V) {i : NodeId} {n : LRUListNode K V}
    (hn : l.nodes i = some n) (c a' : NodeId) (hic : i ≠ c) (hia : i ≠ a') :
    prevOf (spliceOut l c a' i) i = some none := by
  show prevOf (setOwner _ i false) i = _
  rw [prevOf_setOwner]
  have : ((setNext (setPrev (setNext l c (some a')) a' (some c)) i none).nodes i).isSome := by
    rw [nodes_setNext, if_pos rfl, nodes_setPrev, if_neg hia, nodes_setNext, if_neg hic, hn]
    rfl
  obtain ⟨m, hm⟩ := Option.isSome_iff_exists.mp this
  exact prevOf_setPrev_self _ hm _

theorem nextOf_spliceOut_ne (l : LRUList K V) {c a' i j : NodeId}
    (hjc : j ≠ c) (hji : j ≠ i) : nextOf (spliceOut l c a' i) j = nextOf l j := by
  show nextOf (setOwner _ i false) j = _
  rw [nextOf_setOwner, nextOf_setPrev, nextOf_setNext_ne _ _ hji, nextOf_setPrev,
    nextOf_setNext_ne _ _ hjc]

theorem nextOf_spliceOut_c (l : LRUList K V) {c a' i : NodeId}
    (hc : (l.nodes c).isSome) (hci : c ≠ i) :
    nextOf (spliceOut l c a' i) c = some (some a') := by
  show nextOf (setOwner _ i false) c = _
  obtain ⟨m, hm⟩ := Option.isSome_iff_exists.mp hc
  rw [nextOf_setOwner, nextOf_setPrev, nextOf_setNext_ne _ _ hci, nextOf_setPrev,
    nextOf_setNext_self _ hm]

theorem nodes_spliceOut_i (l : LRUList K V) {i : NodeId} {n : LRUListNode K V}
    (hn : l.nodes i = some n) {c a' : NodeId} (hic : i ≠ c) (hia : i ≠ a') :
    (spliceOut l c a' i).nodes i =
      some { n with next := none, prev := none, list := false } := by
  show (setOwner _ i false).nodes i = _
  rw [nodes_setOwner, if_pos rfl, nodes_setPrev, if_pos rfl, nodes_setNext, if_pos rfl,
    nodes_setPrev, if_neg hia, nodes_setNext, if_neg hic, hn]
  rfl

theorem attachedB_spliceOut_ne (l : LRUList K V) {c a' i j : NodeId} (hji : j ≠ i) :
    attachedB (spliceOut l c a' i) j = attachedB l j := by
  show attachedB (setOwner _ i false) j = _
  rw [attachedB_setOwner_ne _ _ hji, attachedB_setPrev, attachedB_setNext,
    attachedB_setPrev, attachedB_setNext]

theorem keyOf_spliceOut [Inhabited K] (l : LRUList K V) (c a' i j : NodeId) :
    keyOf (spliceOut l c a' i) j = keyOf l j := by
  show keyOf (setOwner _ i false) j = _
  rw [keyOf_setOwner, keyOf_setPrev, keyOf_setNext, keyOf_setPrev, keyOf_setNext]

theorem valOf_spliceOut [Inhabited V] (l : LRUList K V) (c a' i j : NodeId) :
    valOf (spliceOut l c a' i) j = valOf l j := by
  show valOf (setOwner _ i false) j = _
  rw [valOf_setOwner, valOf_setPrev, valOf_setNext, valOf_setPrev, valOf_setNext]

theorem prevOf_spliceIn_ne (l : LRUList K V) {nid aid nx j : NodeId}
    (hjn : j ≠ nid) (hjx : j ≠ nx) : prevOf (spliceIn l nid aid nx) j = prevOf l j := by
  show prevOf (setPrev _ nx (some nid)) j = _
  rw [prevOf_setPrev_ne _ _ hjx, prevOf_setNext, prevOf_setPrev_ne _ _ hjn,
    prevOf_setNext, prevOf_setOwner]

theorem prevOf_spliceIn_nx (l : LRUList K V) {nid aid nx : NodeId}
    (hx : (l.nodes nx).isSome) (hxn : nx ≠ nid) :
    prevOf (spliceIn l nid aid nx) nx = some (some nid) := by
  show prevOf (setPrev _ nx (some nid)) nx = _
  have : ((setNext (setPrev (setNext (setOwner l nid true) aid (some nid)) nid (some aid)) nid (some nx)).nodes nx).isSome := by
    rw [isSome_nodes_setNext, isSome_nodes_setPrev, isSome_nodes_setNext, isSome_nodes_setOwner]
    exact hx
  obtain ⟨m, hm⟩ := Option.isSome_iff_exists.mp this
  exact prevOf_setPrev_self _ hm _

theorem prevOf_spliceIn_nid (l : LRUList K V) {nid aid nx : NodeId}
    (hn : (l.nodes nid).isSome) (hxn : nx ≠ nid) (han : aid ≠ nid) :
    prevOf (spliceIn l nid aid nx) nid = some (some aid) := by
  show prevOf (setPrev _ nx (some nid)) nid = _
  rw [prevOf_setPrev_ne _ _ (fun h => hxn h.symm), prevOf_setNext]
  have : ((setNext (setOwner l nid true) aid (some nid)).nodes nid).isSome := by
    rw [isSome_nodes_setNext, isSome_nodes_setOwner]; exact hn
  obtain ⟨m, hm⟩ := Option.isSome_iff_exists.mp this
  exact prevOf_setPrev_self _ hm _

theorem nextOf_spliceIn_ne (l : LRUList K V) {nid aid nx j : NodeId}
    (hja : j ≠ aid) (hjn : j ≠ nid) : nextOf (spliceIn l nid aid nx) j = nextOf l j := by
  show nextOf (setPrev _ nx (some nid)) j = _
  rw [nextOf_setPrev, nextOf_setNext_ne _ _ hjn, nextOf_setPrev,
    nextOf_setNext_ne _ _ hja, nextOf_setOwner]

theorem nextOf_spliceIn_aid (l : LRUList K V) {nid aid nx : NodeId}
    (ha : (l.nodes aid).isSome) (han : aid ≠ nid) :
    nextOf (spliceIn l nid aid nx) aid = some (some nid) := by
  show nextOf (setPrev _ nx (some nid)) aid = _
  rw [nextOf_setPrev, nextOf_setNext_ne _ _ han, nextOf_setPrev]
  have : ((setOwner l nid true).nodes aid).isSome := by
    rw [nodes_setOwner, if_neg han]; exact ha
  obtain ⟨m, hm⟩ := Option.isSome_iff_exists.mp this
  exact nextOf_setNext_self _ hm _

theorem nextOf_spliceIn_nid (l : LRUList K V) {nid aid nx : NodeId}
    (hn : (l.nodes nid).isSome) :
    nextOf (spliceIn l nid aid nx) nid = some (some nx) := by
  show nextOf (setPrev _ nx (some nid)) nid = _
  rw [nextOf_setPrev]
  have : ((setPrev (setNext (setOwner l nid true) aid (some nid)) nid (some aid)).nodes nid).isSome := by
    rw [isSome_nodes_setPrev, isSome_nodes_setNext, isSome_nodes_setOwner]; exact hn
  obtain ⟨m, hm⟩ := Option.isSome_iff_exists.mp this
  exact nextOf_setNext_self _ hm _

theorem attachedB_setOwner_self (l : LRUList K V) {i : NodeId}
    (h : (l.nodes i).isSome) (b : Bool) : attachedB (setOwner l i b) i = b := by
  obtain ⟨m, hm⟩ := Option.isSome_iff_exists.mp h
  unfold attachedB
  rw [nodes_setOwner, if_pos rfl, hm]
  rfl

theorem attachedB_spliceIn_ne (l : LRUList K V) {nid aid nx j : NodeId}
    (hjn : j ≠ nid) : attachedB (spliceIn l nid aid nx) j = attachedB l j := by
  show attachedB (setPrev _ nx (some nid)) j = _
  rw [attachedB_setPrev, attachedB_setNext, attachedB_setPrev, attachedB_setNext,
    attachedB_setOwner_ne _ _ hjn]

theorem attachedB_spliceIn_nid (l : LRUList K V) {nid : NodeId} (aid nx : NodeId)
    (hn : (l.nodes nid).isSome) : attachedB (spliceIn l nid aid nx) nid = true := by
  show attachedB (setPrev _ nx (some nid)) nid = _
  rw [attachedB_setPrev, attachedB_setNext, attachedB_setPrev, attachedB_setNext,
    attachedB_setOwner_self _ hn]

theorem keyOf_spliceIn [Inhabited K] (l : LRUList K V) (nid aid nx j : NodeId) :
    keyOf (spliceIn l nid aid nx) j = keyOf l j := by
  show keyOf (setPrev _ nx (some nid)) j = _
  rw [keyOf_setPrev, keyOf_setNext, keyOf_setPrev, keyOf_setNext, keyOf_setOwner]

theorem valOf_spliceIn [Inhabited V] (l : LRUList K V) (nid aid nx j : NodeId) :
    valOf (spliceIn l nid aid nx) j = valOf l j := by
  show valOf (setPrev _ nx (some nid)) j = _
  rw [valOf_setPrev, valOf_setNext, valOf_setPrev, valOf_setNext, valOf_setOwner]

/-! ## Allocation frame lemmas -/

theorem nodes_alloc (l : LRUList K V) (key : K) (value : V) (b : Bool)
    (nx pv : Option NodeId) (j : NodeId) :
    ((NewLRUListNode l key value b nx pv).2).nodes j =
      if j = l.nextId then some ⟨nx, pv, b, key, value⟩ else l.nodes j := rfl

@[simp] theorem fst_alloc (l : LRUList K V) (key : K) (value : V) (b : Bool)
    (nx pv : Option NodeId) : (NewLRUListNode l key value b nx pv).1 = l.nextId := rfl

@[simp] theorem nextId_alloc (l : LRUList K V) (key : K) (value : V) (b : Bool)
    (nx pv : Option NodeId) :
    ((NewLRUListNode l key value b nx pv).2).nextId = l.nextId + 1 := rfl

@[simp] theorem len_alloc (l : LRUList K V) (key : K) (value : V) (b : Bool)
    (nx pv : Option NodeId) : ((NewLRUListNode l key value b nx pv).2).len = l.len := rfl

theorem prevOf_alloc_ne (l : LRUList K V) {j : NodeId} (key : K) (value : V) (b : Bool)
    (nx pv : Option NodeId) (hj : j ≠ l.nextId) :
    prevOf ((NewLRUListNode l key value b nx pv).2) j = prevOf l j := by
  unfold prevOf
  rw [nodes_alloc, if_neg hj]

theorem nextOf_alloc_ne (l : LRUList K V) {j : NodeId} (key : K) (value : V) (b : Bool)
    (nx pv : Option NodeId) (hj : j ≠ l.nextId) :
    nextOf ((NewLRUListNode l key value b nx pv).2) j = nextOf l j := by
  unfold nextOf
  rw [nodes_alloc, if_neg hj]

theorem attachedB_alloc_ne (l : LRUList K V) {j : NodeId} (key : K) (value : V) (b : Bool)
    (nx pv : Option NodeId) (hj : j ≠ l.nextId) :
    attachedB ((NewLRUListNode l key value b nx pv).2) j = attachedB l j := by
  unfold attachedB
  rw [nodes_alloc, if_neg hj]

theorem keyOf_alloc_ne [Inhabited K] (l : LRUList K V) {j : NodeId} (key : K) (value : V)
    (b : Bool) (nx pv : Option NodeId) (hj : j ≠ l.nextId) :
    keyOf ((NewLRUListNode l key value b nx pv).2) j = keyOf l j := by
  unfold keyOf
  rw [nodes_alloc, if_neg hj]

theorem valOf_alloc_ne [Inhabited V] (l : LRUList K V) {j : NodeId} (key : K) (value : V)
    (b : Bool) (nx pv : Option NodeId) (hj : j ≠ l.nextId) :
    valOf ((NewLRUListNode l key value b nx pv).2) j = valOf l j := by
  unfold valOf
  rw [nodes_alloc, if_neg hj]

/-! ## Basic conversions -/

theorem attachedB_iff (l : LRUList K V) (i : NodeId) :
    attachedB l i = true ↔ ∃ n, l.nodes i = some n ∧ n.list = true := by
  unfold attachedB
  cases h : l.nodes i with
  | none => simp
  | some n => simp [h]

theorem isSome_of_attachedB {l : LRUList K V} {j : NodeId} (h : attachedB l j = true) :
    (l.nodes j).isSome := by
  obtain ⟨n, hn, _⟩ := (attachedB_iff l j).mp h
  rw [hn]; rfl

theorem prevIs_field {l : LRUList K V} {i b : NodeId} {n : LRUListNode K V}
    (hn : l.nodes i = some n) (h : prevIs l i b) : n.prev = some b := by
  unfold prevIs prevOf at h
  rw [hn] at h
  simpa using h

theorem nextIs_field {l : LRUList K V} {i b : NodeId} {n : LRUListNode K V}
    (hn : l.nodes i = some n) (h : nextIs l i b) : n.next = some b := by
  unfold nextIs nextOf at h
  rw [hn] at h
  simpa using h

/-! ## Effect of a successful `Remove` on a well-formed list -/

theorem Remove_ok [Inhabited K] [Inhabited V] {l : LRUList K V} {ids : List NodeId}
    (hwf : WF l ids) {i : NodeId} (hi : i ∈ ids) :
    ∃ l', Remove l (some i) = .ok i l' ∧
      WF l' (ids.erase i) ∧
      (∀ j, keyOf l' j = keyOf l j) ∧
      (∀ j, valOf l' j = valOf l j) ∧
      l'.nextId = l.nextId ∧
      l'.len = l.len - 1 ∧
      (∃ n : LRUListNode K V, l.nodes i = some n ∧
        l'.nodes i = some { n with next := none, prev := none, list := false }) := by
  obtain ⟨hroot, hall, hnr, hfresh, hpos, hnd, hlen, hchain⟩ := hwf
  obtain ⟨u, w, rfl⟩ := List.append_of_mem hi
  have hnds := hnd
  rw [List.nodup_append] at hnds
  obtain ⟨hndu, hndiw, hdisj⟩ := hnds
  rw [List.nodup_cons] at hndiw
  obtain ⟨hiw, hndw⟩ := hndiw
  have hiu : i ∉ u := fun h => hdisj h (by simp)
  have hduw : ∀ x ∈ u, x ∉ w := fun x hx hxw => hdisj hx (by simp [hxw])
  have hi0 : i ≠ 0 := hnr i hi
  obtain ⟨n, hn, hl⟩ := (attachedB_iff l i).mp (hall i hi)
  have herase : (u ++ i :: w).erase i = u ++ w := by
    rw [List.erase_append_right _ hiu, List.erase_cons_head]
  have main : ∃ c a', n.prev = some c ∧ n.next = some a' ∧ i ≠ c ∧ i ≠ a' ∧
      chainTo (spliceOut l c a' i) 0 (u ++ w) 0 := by
    rcases List.eq_nil_or_concat u with rfl | ⟨u₀, p, hu⟩
    · rw [List.nil_append] at hchain
      obtain ⟨h0i, hcw⟩ := chainTo_cons.mp hchain
      have hx : n.next = some 0 := nextIs_field hn h0i.2
      cases w with
      | nil =>
        have hp : n.prev = some 0 := prevIs_field hn (chainTo_nil.mp hcw).1
        refine ⟨0, 0, hp, hx, hi0, hi0, ?_⟩
        refine chainTo_nil.mpr ⟨?_, ?_⟩
        · exact prevOf_spliceOut_target l (isSome_of_attachedB hroot) (Ne.symm hi0)
        · exact nextOf_spliceOut_c l (isSome_of_attachedB hroot) (Ne.symm hi0)
      | cons cc w' =>
        obtain ⟨hicz, hcw'⟩ := chainTo_cons.mp hcw
        have hp : n.prev = some cc := prevIs_field hn hicz.1
        have hicc : i ≠ cc := fun h => hiw (h ▸ List.mem_cons_self cc w')
        have hcc0 : cc ≠ 0 := hnr cc (by simp)
        refine ⟨cc, 0, hp, hx, hicc, hi0, ?_⟩
        refine chainTo_cons.mpr ⟨⟨?_, ?_⟩, ?_⟩
        · exact prevOf_spliceOut_target l (isSome_of_attachedB hroot) (Ne.symm hi0)
        · exact nextOf_spliceOut_c l (isSome_of_attachedB (hall cc (by simp))) (Ne.symm hicc)
        · refine chainTo_frame hcw' ?_ ?_
          · intro x hx'
            have hxw : x ∈ cc :: w' := hx'
            refine prevOf_spliceOut_ne l (hnr x (by simpa using Or.inr hxw)) ?_
            exact fun h => hiw (h ▸ hxw)
          · intro x hx'
            rcases List.mem_append.mp hx' with hx1 | hx1
            · have hxw : x ∈ cc :: w' := List.mem_cons_of_mem cc hx1
              refine nextOf_spliceOut_ne l ?_ ?_
              · exact fun h => (List.nodup_cons.mp hndw).1 (h ▸ hx1)
              · exact fun h => hiw (h ▸ hxw)
            · have hx0 : x = 0 := by simpa using hx1
              subst hx0
              exact nextOf_spliceOut_ne l (Ne.symm hcc0) (Ne.symm hi0)
    · rw [List.concat_eq_append] at hu
      subst hu
      obtain ⟨hcu, hciw⟩ := (chainTo_append (u₀ ++ [p]) w).mp hchain
      obtain ⟨hcu₀, hlpi⟩ := (chainTo_snoc u₀).mp hcu
      have hx : n.next = some p := nextIs_field hn hlpi.2
      have hpmem : p ∈ u₀ ++ [p] := by simp
      have hp0 : p ≠ 0 := hnr p (by simpa using Or.inl (Or.inr rfl))
      have hpi : i ≠ p := fun h => hiu (h ▸ hpmem)
      have hpu₀ : p ∉ u₀ := by
        rw [List.nodup_append] at hndu
        exact fun h => hndu.2.2 h (by simp)
      cases w with
      | nil =>
        have hp' : n.prev = some 0 := prevIs_field hn (chainTo_nil.mp hciw).1
        refine ⟨0, p, hp', hx, hi0, hpi, ?_⟩
        rw [List.append_nil]
        refine (chainTo_snoc u₀).mpr ⟨?_, ?_, ?_⟩
        · refine chainTo_frame hcu₀ ?_ ?_
          · intro x hx'
            rcases List.mem_cons.mp hx' with hx1 | hx1
            · subst hx1
              exact prevOf_spliceOut_ne l (Ne.symm hp0) (Ne.symm hi0)
            · refine prevOf_spliceOut_ne l ?_ ?_
              · exact fun h => hpu₀ (h ▸ hx1)
              · exact fun h => hiu (h ▸ List.mem_append.mpr (Or.inl hx1))
          · intro x hx'
            refine nextOf_spliceOut_ne l ?_ ?_
            · exact hnr x (List.mem_append.mpr (Or.inl hx'))
            · exact fun h => hiu (h ▸ hx')
        · exact prevOf_spliceOut_target l
            (isSome_of_attachedB (hall p (by simpa using Or.inl hpmem))) (Ne.symm hpi)
        · exact nextOf_spliceOut_c l (isSome_of_attachedB hroot) (Ne.symm hi0)
      | cons cc w' =>
        obtain ⟨hicz, hcw'⟩ := chainTo_cons.mp hciw
        have hp' : n.prev = some cc := prevIs_field hn hicz.1
        have hccw : cc ∈ cc :: w' := List.mem_cons_self cc w'
        have hicc : i ≠ cc := fun h => hiw (h ▸ hccw)
        have hcc0 : cc ≠ 0 := hnr cc (by simpa using Or.inr (Or.inr hccw))
        have hpcc : p ≠ cc := fun h => hduw p hpmem (h ▸ hccw)
        refine ⟨cc, p, hp', hx, hicc, hpi, ?_⟩
        refine (chainTo_append (u₀ ++ [p]) w').mpr ⟨?_, ?_⟩
        · refine (chainTo_snoc u₀).mpr ⟨?_, ?_, ?_⟩
          · refine chainTo_frame hcu₀ ?_ ?_
            · intro x hx'
              rcases List.mem_cons.mp hx' with hx1 | hx1
              · subst hx1
                exact prevOf_spliceOut_ne l (Ne.symm hp0) (Ne.symm hi0)
              · refine prevOf_spliceOut_ne l ?_ ?_
                · exact fun h => hpu₀ (h ▸ hx1)
                · exact fun h => hiu (h ▸ List.mem_append.mpr (Or.inl hx1))
            · intro x hx'
              refine nextOf_spliceOut_ne l ?_ ?_
              · exact fun h => hduw x (h ▸ hx') (h ▸ hccw)
              · exact fun h => hiu (h ▸ hx')
          · exact prevOf_spliceOut_target l
              (isSome_of_attachedB (hall p (by simpa using Or.inl hpmem))) (Ne.symm hpi)
          · exact nextOf_spliceOut_c l
              (isSome_of_attachedB (hall cc (by simpa using Or.inr (Or.inr hccw))))
              (Ne.symm hicc)
        · refine chainTo_frame hcw' ?_ ?_
          · intro x hx'
            have hxw : x ∈ cc :: w' := hx'
            refine prevOf_spliceOut_ne l ?_ ?_
            · exact fun h => hduw p hpmem (h ▸ hxw)
            · exact fun h => hiw (h ▸ hxw)
          · intro x hx'
            rcases List.mem_append.mp hx' with hx1 | hx1
            · have hxw : x ∈ cc :: w' := List.mem_cons_of_mem cc hx1
              refine nextOf_spliceOut_ne l ?_ ?_
              · exact fun h => (List.nodup_cons.mp hndw).1 (h ▸ hx1)
              · exact fun h => hiw (h ▸ hxw)
            · have hx0 : x = 0 := by simpa using hx1
              subst hx0
              exact nextOf_spliceOut_ne l (Ne.symm hcc0) (Ne.symm hi0)
  obtain ⟨c, a', hp, hx, hic, hia, hchain'⟩ := main
  refine ⟨spliceOut l c a' i, Remove_eq hn hl hi0 hp hx hic, ?_, ?_, ?_, ?_, ?_, ?_⟩
  · rw [herase]
    refine ⟨?_, ?_, ?_, ?_, ?_, ?_, ?_, hchain'⟩
    · rw [attachedB_spliceOut_ne l (Ne.symm hi0)]
      exact hroot
    · intro j hj
      have hji : j ≠ i := by
        rcases List.mem_append.mp hj with h1 | h1
        · exact fun h => hiu (h ▸ h1)
        · exact fun h => hiw (h ▸ h1)
      rw [attachedB_spliceOut_ne l hji]
      refine hall j ?_
      rcases List.mem_append.mp hj with h1 | h1
      · simp [h1]
      · simp [h1]
    · intro j hj
      refine hnr j ?_
      rcases List.mem_append.mp hj with h1 | h1
      · simp [h1]
      · simp [h1]
    · intro j hj
      rw [nextId_spliceOut]
      refine hfresh j ?_
      rcases List.mem_append.mp hj with h1 | h1
      · simp [h1]
      · simp [h1]
    · rw [nextId_spliceOut]
      exact hpos
    · exact List.nodup_append.mpr ⟨hndu, hndw, hduw⟩
    · rw [len_spliceOut, hlen]
      simp [List.length_append]
      ring
  · exact keyOf_spliceOut l c a' i
  · exact valOf_spliceOut l c a' i
  · exact nextId_spliceOut l c a' i
  · exact len_spliceOut l c a' i
  · exact ⟨n, hn, nodes_spliceOut_i l hn hic hia⟩


/-! ## Reading `Front`/`Back` on a well-formed list -/

theorem Front_eq [Inhabited K] [Inhabited V] {l : LRUList K V} {ids : List NodeId}
    (hwf : WF l ids) : Front l = ids.head? := by
  obtain ⟨hroot, hall, hnr, hfresh, hpos, hnd, hlen, hchain⟩ := hwf
  obtain ⟨r, hr, hrl⟩ := (attachedB_iff l 0).mp hroot
  unfold Front NodePrev
  rw [hr]
  cases ids with
  | nil =>
    have : r.prev = some 0 := prevIs_field hr (chainTo_nil.mp hchain).1
    simp [this, hrl]
  | cons f rest =>
    have hprev : r.prev = some f := prevIs_field hr (chainTo_cons.mp hchain).1.1
    have hf0 : f ≠ 0 := hnr f (by simp)
    simp [hprev, hrl, hf0]

theorem Back_eq [Inhabited K] [Inhabited V] {l : LRUList K V} {ids : List NodeId}
    (hwf : WF l ids) : Back l = ids.getLast? := by
  obtain ⟨hroot, hall, hnr, hfresh, hpos, hnd, hlen, hchain⟩ := hwf
  obtain ⟨r, hr, hrl⟩ := (attachedB_iff l 0).mp hroot
  unfold Back NodeNext
  rw [hr]
  rcases List.eq_nil_or_concat ids with rfl | ⟨xs, b, hu⟩
  · have : r.next = some 0 := nextIs_field hr (chainTo_nil.mp hchain).2
    simp [this, hrl]
  · rw [List.concat_eq_append] at hu
    subst hu
    have hlink : linked l b 0 := ((chainTo_snoc xs).mp hchain).2
    have hnext : r.next = some b := nextIs_field hr hlink.2
    have hb0 : b ≠ 0 := hnr b (by simp)
    simp [hnext, hrl, hb0]

/-! ## Effect of `pushFront`/`pushBack` on a well-formed list -/

theorem pushFront_ok [Inhabited K] [Inhabited V] {l : LRUList K V} {ids : List NodeId}
    (hwf : WF l ids) {nid : NodeId} {n : LRUListNode K V}
    (hn : l.nodes nid = some n) (hfl : n.list = false) (hfn : n.next = none)
    (hfp : n.prev = none) (hnmem : nid ∉ ids) (hn0 : nid ≠ 0) (hnlt : nid < l.nextId) :
    ∃ l', pushFront l (some nid) = .ok nid l' ∧
      WF l' (nid :: ids) ∧
      (∀ j, keyOf l' j = keyOf l j) ∧
      (∀ j, valOf l' j = valOf l j) ∧
      l'.nextId = l.nextId ∧
      l'.len = l.len + 1 := by
  obtain ⟨hroot, hall, hnr, hfresh, hpos, hnd, hlen, hchain⟩ := hwf
  obtain ⟨r, hr, hrl⟩ := (attachedB_iff l 0).mp hroot
  have hsn : (l.nodes nid).isSome := by rw [hn]; rfl
  -- the insertion point: the current front (or the root on an empty list)
  have key : ∃ aid a, prevOf l 0 = some (some aid) ∧ l.nodes aid = some a ∧
      a.list = true ∧ a.next = some 0 ∧ aid ≠ nid ∧
      chainTo (spliceIn l nid aid 0) 0 (nid :: ids) 0 := by
    cases ids with
    | nil =>
      have hrp : r.prev = some 0 := prevIs_field hr (chainTo_nil.mp hchain).1
      have hrn : r.next = some 0 := nextIs_field hr (chainTo_nil.mp hchain).2
      refine ⟨0, r, ?_, hr, hrl, hrn, Ne.symm hn0, ?_⟩
      · simp [prevOf, hr, hrp]
      · refine chainTo_cons.mpr ⟨⟨?_, ?_⟩, chainTo_nil.mpr ⟨?_, ?_⟩⟩
        · exact prevOf_spliceIn_nx l (isSome_of_attachedB hroot) (Ne.symm hn0)
        · exact nextOf_spliceIn_nid l hsn
        · exact prevOf_spliceIn_nid l hsn (Ne.symm hn0) (Ne.symm hn0)
        · exact nextOf_spliceIn_aid l (isSome_of_attachedB hroot) (Ne.symm hn0)
    | cons f rest =>
      obtain ⟨h0f, hcrest⟩ := chainTo_cons.mp hchain
      have hrp : r.prev = some f := prevIs_field hr h0f.1
      obtain ⟨fn, hfn', hfnl⟩ := (attachedB_iff l f).mp (hall f (by simp))
      have hfx : fn.next = some 0 := nextIs_field hfn' h0f.2
      have hfnid : f ≠ nid := fun h => hnmem (by rw [← h]; exact List.mem_cons_self f rest)
      have hf0 : f ≠ 0 := hnr f (by simp)
      refine ⟨f, fn, ?_, hfn', hfnl, hfx, hfnid, ?_⟩
      · simp [prevOf, hr, hrp]
      · refine chainTo_cons.mpr ⟨⟨?_, ?_⟩, chainTo_cons.mpr ⟨⟨?_, ?_⟩, ?_⟩⟩
        · exact prevOf_spliceIn_nx l (isSome_of_attachedB hroot) (Ne.symm hn0)
        · exact nextOf_spliceIn_nid l hsn
        · exact prevOf_spliceIn_nid l hsn (Ne.symm hn0) hfnid
        · exact nextOf_spliceIn_aid l (isSome_of_attachedB (hall f (by simp))) hfnid
        · refine chainTo_frame hcrest ?_ ?_
          · intro x hx
            have hxids : x ∈ f :: rest := hx
            refine prevOf_spliceIn_ne l ?_ ?_
            · exact fun h => hnmem (by rw [← h]; exact hxids)
            · exact hnr x hxids
          · intro x hx
            rcases List.mem_append.mp hx with hx1 | hx1
            · refine nextOf_spliceIn_ne l ?_ ?_
              · exact fun h => (List.nodup_cons.mp hnd).1 (by rw [← h]; exact hx1)
              · exact fun h => hnmem (by rw [← h]; exact List.mem_cons_of_mem f hx1)
            · have hx0 : x = 0 := by simpa using hx1
              subst hx0
              exact nextOf_spliceIn_ne l (Ne.symm hf0) (Ne.symm hn0)
  obtain ⟨aid, a, hro, ha, hal, hax, hanid, hchain'⟩ := key
  have heq : pushFront l (some nid) = .ok nid (spliceIn l nid aid 0) := by
    unfold pushFront
    rw [hro]
    exact insert_eq hn hfl hfn hfp ha hal hax
  refine ⟨spliceIn l nid aid 0, heq, ?_, ?_, ?_, ?_, ?_⟩
  · refine ⟨?_, ?_, ?_, ?_, ?_, ?_, ?_, hchain'⟩
    · rw [attachedB_spliceIn_ne l (Ne.symm hn0)]
      exact hroot
    · intro j hj
      rcases List.mem_cons.mp hj with rfl | hj1
      · exact attachedB_spliceIn_nid l aid 0 hsn
      · rw [attachedB_spliceIn_ne l (fun h => hnmem (by rw [← h]; exact hj1))]
        exact hall j hj1
    · intro j hj
      rcases List.mem_cons.mp hj with rfl | hj1
      · exact hn0
      · exact hnr j hj1
    · intro j hj
      rw [nextId_spliceIn]
      rcases List.mem_cons.mp hj with rfl | hj1
      · exact hnlt
      · exact hfresh j hj1
    · rw [nextId_spliceIn]
      exact hpos
    · exact List.nodup_cons.mpr ⟨hnmem, hnd⟩
    · rw [len_spliceIn, hlen]
      simp
  · exact keyOf_spliceIn l nid aid 0
  · exact valOf_spliceIn l nid aid 0
  · exact nextId_spliceIn l nid aid 0
  · exact len_spliceIn l nid aid 0

theorem pushBack_ok [Inhabited K] [Inhabited V] {l : LRUList K V} {ids : List NodeId}
    (hwf : WF l ids) {nid : NodeId} {n : LRUListNode K V}
    (hn : l.nodes nid = some n) (hfl : n.list = false) (hfn : n.next = none)
    (hfp : n.prev = none) (hnmem : nid ∉ ids) (hn0 : nid ≠ 0) (hnlt : nid < l.nextId) :
    ∃ l', pushBack l (some nid) = .ok nid l' ∧
      WF l' (ids ++ [nid]) ∧
      (∀ j, keyOf l' j = keyOf l j) ∧
      (∀ j, valOf l' j = valOf l j) ∧
      l'.nextId = l.nextId ∧
      l'.len = l.len + 1 := by
  obtain ⟨hroot, hall, hnr, hfresh, hpos, hnd, hlen, hchain⟩ := hwf
  obtain ⟨r, hr, hrl⟩ := (attachedB_iff l 0).mp hroot
  have hsn : (l.nodes nid).isSome := by rw [hn]; rfl
  have key : ∃ nx, r.next = some nx ∧ nx ≠ nid ∧ (l.nodes nx).isSome ∧
      chainTo (spliceIn l nid 0 nx) 0 (ids ++ [nid]) 0 := by
    rcases List.eq_nil_or_concat ids with rfl | ⟨xs, b, hu⟩
    · have hrn : r.next = some 0 := nextIs_field hr (chainTo_nil.mp hchain).2
      refine ⟨0, hrn, Ne.symm hn0, isSome_of_attachedB hroot, ?_⟩
      refine chainTo_cons.mpr ⟨⟨?_, ?_⟩, chainTo_nil.mpr ⟨?_, ?_⟩⟩
      · exact prevOf_spliceIn_nx l (isSome_of_attachedB hroot) (Ne.symm hn0)
      · exact nextOf_spliceIn_nid l hsn
      · exact prevOf_spliceIn_nid l hsn (Ne.symm hn0) (Ne.symm hn0)
      · exact nextOf_spliceIn_aid l (isSome_of_attachedB hroot) (Ne.symm hn0)
    · rw [List.concat_eq_append] at hu
      subst hu
      obtain ⟨hcxs, hlb0⟩ := (chainTo_snoc xs).mp hchain
      have hrn : r.next = some b := nextIs_field hr hlb0.2
      have hbmem : b ∈ xs ++ [b] := by simp
      have hbnid : b ≠ nid := fun h => hnmem (by rw [← h]; exact hbmem)
      have hb0 : b ≠ 0 := hnr b hbmem
      have hbxs : b ∉ xs := by
        rw [List.nodup_append] at hnd
        exact fun h => hnd.2.2 h (by simp)
      refine ⟨b, hrn, hbnid, isSome_of_attachedB (hall b hbmem), ?_⟩
      rw [List.append_assoc]
      refine (chainTo_append xs [nid]).mpr ⟨?_, ?_⟩
      · refine chainTo_frame hcxs ?_ ?_
        · intro x hx
          rcases List.mem_cons.mp hx with rfl | hx1
          · exact prevOf_spliceIn_ne l (Ne.symm hn0) (Ne.symm hb0)
          · refine prevOf_spliceIn_ne l ?_ ?_
            · exact fun h => hnmem (by rw [← h]; exact List.mem_append.mpr (Or.inl hx1))
            · exact fun h => hbxs (by rw [← h]; exact hx1)
        · intro x hx
          refine nextOf_spliceIn_ne l ?_ ?_
          · exact hnr x hx
          · exact fun h => hnmem (by rw [← h]; exact hx)
      · refine chainTo_cons.mpr ⟨⟨?_, ?_⟩, chainTo_nil.mpr ⟨?_, ?_⟩⟩
        · exact prevOf_spliceIn_nx l (isSome_of_attachedB (hall b hbmem)) hbnid
        · exact nextOf_spliceIn_nid l hsn
        · exact prevOf_spliceIn_nid l hsn hbnid (Ne.symm hn0)
        · exact nextOf_spliceIn_aid l (isSome_of_attachedB hroot) (Ne.symm hn0)
  obtain ⟨nx, hrn, hxnid, hxs, hchain'⟩ := key
  have heq : pushBack l (some nid) = .ok nid (spliceIn l nid 0 nx) := by
    unfold pushBack
    exact insert_eq hn hfl hfn hfp hr hrl hrn
  refine ⟨spliceIn l nid 0 nx, heq, ?_, ?_, ?_, ?_, ?_⟩
  · refine ⟨?_, ?_, ?_, ?_, ?_, ?_, ?_, hchain'⟩
    · rw [attachedB_spliceIn_ne l (Ne.symm hn0)]
      exact hroot
    · intro j hj
      rcases List.mem_append.mp hj with hj1 | hj1
      · rw [attachedB_spliceIn_ne l (fun h => hnmem (by rw [← h]; exact hj1))]
        exact hall j hj1
      · have : j = nid := by simpa using hj1
        subst this
        exact attachedB_spliceIn_nid l 0 nx hsn
    · intro j hj
      rcases List.mem_append.mp hj with hj1 | hj1
      · exact hnr j hj1
      · have : j = nid := by simpa using hj1
        subst this
        exact hn0
    · intro j hj
      rw [nextId_spliceIn]
      rcases List.mem_append.mp hj with hj1 | hj1
      · exact hfresh j hj1
      · have : j = nid := by simpa using hj1
        subst this
        exact hnlt
    · rw [nextId_spliceIn]
      exact hpos
    · rw [List.nodup_append]
      refine ⟨hnd, List.nodup_singleton nid, ?_⟩
      intro x hx h
      have hxn : x = nid := by simpa using h
      subst hxn
      exact hnmem hx
    · rw [len_spliceIn, hlen]
      simp
  · exact keyOf_spliceIn l nid 0 nx
  · exact valOf_spliceIn l nid 0 nx
  · exact nextId_spliceIn l nid 0 nx
  · exact len_spliceIn l nid 0 nx

/-! ## Allocation preserves well-formedness -/

theorem WF_alloc [Inhabited K] [Inhabited V] {l : LRUList K V} {ids : List NodeId}
    (hwf : WF l ids) (key : K) (value : V) :
    WF ((NewLRUListNode l key value false none none).2) ids := by
  obtain ⟨hroot, hall, hnr, hfresh, hpos, hnd, hlen, hchain⟩ := hwf
  have hne0 : (0 : NodeId) ≠ l.nextId := Nat.ne_of_lt hpos
  refine ⟨?_, ?_, hnr, ?_, ?_, hnd, ?_, ?_⟩
  · rw [attachedB_alloc_ne l key value false none none hne0]
    exact hroot
  · intro i hi
    rw [attachedB_alloc_ne l key value false none none (Nat.ne_of_lt (hfresh i hi))]
    exact hall i hi
  · intro i hi
    rw [nextId_alloc]
    exact Nat.lt_succ_of_lt (hfresh i hi)
  · rw [nextId_alloc]
    exact Nat.lt_succ_of_lt hpos
  · rw [len_alloc]
    exact hlen
  · refine chainTo_frame hchain ?_ ?_
    · intro x hx
      rcases List.mem_cons.mp hx with rfl | hx1
      · exact prevOf_alloc_ne l key value false none none hne0
      · exact prevOf_alloc_ne l key value false none none (Nat.ne_of_lt (hfresh x hx1))
    · intro x hx
      rcases List.mem_append.mp hx with hx1 | hx1
      · exact nextOf_alloc_ne l key value false none none (Nat.ne_of_lt (hfresh x hx1))
      · have hx0 : x = 0 := by simpa using hx1
        subst hx0
        exact nextOf_alloc_ne l key value false none none hne0

/-! ## Effect of the public `PushFront`/`PushBack` -/

theorem PushFront_ok [Inhabited K] [Inhabited V] {l : LRUList K V} {ids : List NodeId}
    (hwf : WF l ids) (key : K) (value : V) :
    ∃ l', PushFront l key value = some (some l.nextId, l') ∧
      WF l' (l.nextId :: ids) ∧
      (∀ j, j ≠ l.nextId → keyOf l' j = keyOf l j) ∧
      (∀ j, j ≠ l.nextId → valOf l' j = valOf l j) ∧
      keyOf l' l.nextId = key ∧ valOf l' l.nextId = value ∧
      l'.nextId = l.nextId + 1 ∧ l'.len = l.len + 1 ∧
      l.nextId ∉ ids ∧ l.nextId ≠ 0 := by
  obtain ⟨hroot, hall, hnr, hfresh, hpos, hnd, hlen, hchain⟩ := hwf
  have hwf2 : WF ((NewLRUListNode l key value false none none).2) ids :=
    WF_alloc ⟨hroot, hall, hnr, hfresh, hpos, hnd, hlen, hchain⟩ key value
  have hmem : l.nextId ∉ ids := fun h => Nat.lt_irrefl _ (hfresh _ h)
  have h0 : l.nextId ≠ 0 := (Nat.ne_of_lt hpos).symm
  have hn : ((NewLRUListNode l key value false none none).2).nodes l.nextId =
      some ⟨none, none, false, key, value⟩ := by
    rw [nodes_alloc, if_pos rfl]
  obtain ⟨l', hpf, hwf', hkey, hval, hnid, hlen'⟩ :=
    pushFront_ok hwf2 hn rfl rfl rfl hmem h0 (by rw [nextId_alloc]; exact Nat.lt_succ_self _)
  refine ⟨l', ?_, hwf', ?_, ?_, ?_, ?_, ?_, ?_, hmem, h0⟩
  · unfold PushFront
    dsimp only
    rw [fst_alloc, hpf]
  · intro j hj
    rw [hkey j, keyOf_alloc_ne l key value false none none hj]
  · intro j hj
    rw [hval j, valOf_alloc_ne l key value false none none hj]
  · rw [hkey _]
    unfold keyOf
    rw [hn]
  · rw [hval _]
    unfold valOf
    rw [hn]
  · rw [hnid, nextId_alloc]
  · rw [hlen', len_alloc]

theorem PushBack_ok [Inhabited K] [Inhabited V] {l : LRUList K V} {ids : List NodeId}
    (hwf : WF l ids) (key : K) (value : V) :
    ∃ l', PushBack l key value = some (some l.nextId, l') ∧
      WF l' (ids ++ [l.nextId]) ∧
      (∀ j, j ≠ l.nextId → keyOf l' j = keyOf l j) ∧
      (∀ j, j ≠ l.nextId → valOf l' j = valOf l j) ∧
      keyOf l' l.nextId = key ∧ valOf l' l.nextId = value ∧
      l'.nextId = l.nextId + 1 ∧ l'.len = l.len + 1 ∧
      l.nextId ∉ ids ∧ l.nextId ≠ 0 := by
  obtain ⟨hroot, hall, hnr, hfresh, hpos, hnd, hlen, hchain⟩ := hwf
  have hwf2 : WF ((NewLRUListNode l key value false none none).2) ids :=
    WF_alloc ⟨hroot, hall, hnr, hfresh, hpos, hnd, hlen, hchain⟩ key value
  have hmem : l.nextId ∉ ids := fun h => Nat.lt_irrefl _ (hfresh _ h)
  have h0 : l.nextId ≠ 0 := (Nat.ne_of_lt hpos).symm
  have hn : ((NewLRUListNode l key value false none none).2).nodes l.nextId =
      some ⟨none, none, false, key, value⟩ := by
    rw [nodes_alloc, if_pos rfl]
  obtain ⟨l', hpb, hwf', hkey, hval, hnid, hlen'⟩ :=
    pushBack_ok hwf2 hn rfl rfl rfl hmem h0 (by rw [nextId_alloc]; exact Nat.lt_succ_self _)
  refine ⟨l', ?_, hwf', ?_, ?_, ?_, ?_, ?_, ?_, hmem, h0⟩
  · unfold PushBack
    dsimp only
    rw [fst_alloc, hpb]
  · intro j hj
    rw [hkey j, keyOf_alloc_ne l key value false none none hj]
  · intro j hj
    rw [hval j, valOf_alloc_ne l key value false none none hj]
  · rw [hkey _]
    unfold keyOf
    rw [hn]
  · rw [hval _]
    unfold valOf
    rw [hn]
  · rw [hnid, nextId_alloc]
  · rw [hlen', len_alloc]

/-! ## `MoveToFront` and `PopBack` on a well-formed list -/

theorem MoveToFront_ok [Inhabited K] [Inhabited V] {l : LRUList K V} {ids : List NodeId}
    (hwf : WF l ids) {i : NodeId} (hi : i ∈ ids) :
    ∃ l', MoveToFront l (some i) = .ok () l' ∧
      WF l' (i :: ids.erase i) ∧
      (∀ j, keyOf l' j = keyOf l j) ∧
      (∀ j, valOf l' j = valOf l j) ∧
      l'.nextId = l.nextId ∧ l'.len = l.len := by
  have hnd := hwf.2.2.2.2.2.1
  have hi0 : i ≠ 0 := hwf.2.2.1 i hi
  have hilt : i < l.nextId := hwf.2.2.2.1 i hi
  obtain ⟨l1, hrem, hwf1, hkey1, hval1, hnid1, hlen1, n, hn, hn1⟩ := Remove_ok hwf hi
  have hine : i ∉ ids.erase i := by
    intro h
    exact absurd (hnd.mem_erase_iff.mp h).1 (by simp)
  obtain ⟨l', hpf, hwf', hkey2, hval2, hnid2, hlen2⟩ :=
    pushFront_ok hwf1 hn1 rfl rfl rfl hine hi0 (by rw [hnid1]; exact hilt)
  refine ⟨l', ?_, hwf', ?_, ?_, ?_, ?_⟩
  · unfold MoveToFront
    rw [hrem]
    dsimp only
    rw [hpf]
  · intro j
    rw [hkey2 j, hkey1 j]
  · intro j
    rw [hval2 j, hval1 j]
  · rw [hnid2, hnid1]
  · rw [hlen2, hlen1]
    ring
  
theorem PopBack_ok [Inhabited K] [Inhabited V] {l : LRUList K V} {xs : List NodeId}
    {b : NodeId} (hwf : WF l (xs ++ [b])) :
    ∃ l', PopBack l = .ok b l' ∧
      WF l' xs ∧
      (∀ j, keyOf l' j = keyOf l j) ∧
      (∀ j, valOf l' j = valOf l j) ∧
      l'.nextId = l.nextId ∧ l'.len = l.len - 1 ∧
      (∃ nb : LRUListNode K V, l'.nodes b = some nb ∧ nb.key = keyOf l b) := by
  have hback : Back l = some b := by
    rw [Back_eq hwf]
    simp
  have hbxs : b ∉ xs := by
    have hnd := hwf.2.2.2.2.2.1
    rw [List.nodup_append] at hnd
    exact fun h => hnd.2.2 h (by simp)
  have herase : (xs ++ [b]).erase b = xs := by
    rw [List.erase_append_right _ hbxs, List.erase_cons_head, List.append_nil]
  obtain ⟨l', hrem, hwf', hkey, hval, hnid, hlen, n, hn, hn'⟩ :=
    Remove_ok hwf (i := b) (by simp)
  rw [herase] at hwf'
  refine ⟨l', ?_, hwf', hkey, hval, hnid, hlen, ?_⟩
  · unfold PopBack
    rw [hback]
    exact hrem
  · refine ⟨_, hn', ?_⟩
    unfold keyOf
    rw [hn]

/-! ## Association-list map lemmas -/

theorem mapLookup_eq_none_iff [DecidableEq K] (m : NodeMap K) (k : K) :
    mapLookup m k = none ↔ k ∉ m.map Prod.fst := by
  induction m with
  | nil => simp [mapLookup]
  | cons p rest ih =>
    obtain ⟨k', v⟩ := p
    by_cases h : k = k'
    · subst h
      simp [mapLookup]
    · simp [mapLookup, h, ih]

theorem mem_of_mapLookup_eq_some [DecidableEq K] {m : NodeMap K} {k : K}
    {v : Option NodeId} (h : mapLookup m k = some v) : (k, v) ∈ m := by
  induction m with
  | nil => simp [mapLookup] at h
  | cons p rest ih =>
    obtain ⟨k', v'⟩ := p
    by_cases hk : k = k'
    · subst hk
      rw [mapLookup, if_pos rfl] at h
      simp at h
      simp [h]
    · rw [mapLookup, if_neg hk] at h
      exact List.mem_cons_of_mem _ (ih h)

theorem mapLookup_eq_some_of_mem [DecidableEq K] {m : NodeMap K}
    (hnd : (m.map Prod.fst).Nodup) {k : K} {v : Option NodeId} (hm : (k, v) ∈ m) :
    mapLookup m k = some v := by
  induction m with
  | nil => simp at hm
  | cons p rest ih =>
    obtain ⟨k', v'⟩ := p
    rw [List.map_cons, List.nodup_cons] at hnd
    rcases List.mem_cons.mp hm with heq | hmem
    · obtain ⟨rfl, rfl⟩ := Prod.mk.injEq .. ▸ heq
      injection heq with h1 h2
      rw [mapLookup, if_pos rfl]
    · have hk : k ≠ k' := by
        intro h
        subst h
        exact hnd.1 (List.mem_map.mpr ⟨(k, v), hmem, rfl⟩)
      rw [mapLookup, if_neg hk]
      exact ih hnd.2 hmem

theorem mapErase_eq_of_not_mem [DecidableEq K] {m : NodeMap K} {k : K}
    (h : k ∉ m.map Prod.fst) : mapErase m k = m := by
  unfold mapErase
  rw [List.filter_eq_self]
  intro p hp
  simp only [decide_eq_true_eq]
  intro hpk
  exact h (List.mem_map.mpr ⟨p, hp, hpk⟩)

theorem mapLookup_mapErase_self [DecidableEq K] (m : NodeMap K) (k : K) :
    mapLookup (mapErase m k) k = none := by
  rw [mapLookup_eq_none_iff]
  intro h
  obtain ⟨p, hp, hk⟩ := List.mem_map.mp h
  have := List.of_mem_filter hp
  simp [hk] at this

theorem mem_keys_of_mem_keys_mapErase [DecidableEq K] {m : NodeMap K} {k k' : K}
    (h : k' ∈ (mapErase m k).map Prod.fst) : k' ∈ m.map Prod.fst := by
  obtain ⟨p, hp, hk⟩ := List.mem_map.mp h
  exact List.mem_map.mpr ⟨p, List.mem_of_mem_filter hp, hk⟩

theorem tblOf_congr [Inhabited K] {l l' : LRUList K V} {ids : List NodeId}
    (h : ∀ i ∈ ids, keyOf l' i = keyOf l i) : tblOf l' ids = tblOf l ids := by
  unfold tblOf
  exact List.map_congr_left fun i hi => by rw [h i hi]

theorem mapErase_tblOf [DecidableEq K] [Inhabited K] {l : LRUList K V} {ids : List NodeId}
    (hnd : ids.Nodup) (hknd : (ids.map (keyOf l)).Nodup) {j : NodeId} (hj : j ∈ ids) :
    mapErase (tblOf l ids) (keyOf l j) = tblOf l (ids.erase j) := by
  unfold mapErase tblOf
  rw [List.filter_map, hnd.erase_eq_filter]
  congr 1
  apply List.filter_congr
  intro i hi
  simp only [Function.comp]
  rcases eq_or_ne i j with rfl | hne
  · simp
  · have : keyOf l i ≠ keyOf l j :=
      fun h => hne (List.inj_on_of_nodup_map hknd hi hj h)
    simp [this, hne]

theorem cache_keys_perm [DecidableEq K] [Inhabited K] {m : NodeMap K} {l : LRUList K V}
    {ids : List NodeId} (hperm : m.Perm (tblOf l ids)) :
    (m.map Prod.fst).Perm (ids.map (keyOf l)) := by
  have h := hperm.map Prod.fst
  simpa [tblOf, List.map_map, Function.comp] using h

/-- Resolve a cache lookup through the invariant: either the key is absent
from both the map and the list, or it is held by exactly one linked node. -/
theorem CacheInv_lookup [DecidableEq K] [Inhabited K] {c : LRUCache K V} {ids : List NodeId}
    (hinv : CacheInv c ids) (key : K) :
    (key ∉ ids.map (keyOf c.lruList) ∧ mapLookup c.cache key = none) ∨
    (∃ j, j ∈ ids ∧ keyOf c.lruList j = key ∧ mapLookup c.cache key = some (some j)) := by
  obtain ⟨hwf, hperm, hknd, hcap, hle⟩ := hinv
  by_cases h : key ∈ ids.map (keyOf c.lruList)
  · right
    obtain ⟨j, hj, rfl⟩ := List.mem_map.mp h
    refine ⟨j, hj, rfl, ?_⟩
    have hmem : (keyOf c.lruList j, some j) ∈ c.cache :=
      hperm.mem_iff.mpr (List.mem_map.mpr ⟨j, hj, rfl⟩)
    exact mapLookup_eq_some_of_mem
      (((cache_keys_perm hperm).nodup_iff).mpr hknd) hmem
  · left
    refine ⟨h, (mapLookup_eq_none_iff _ _).mpr ?_⟩
    intro hk
    exact h ((cache_keys_perm hperm).mem_iff.mp hk)

/-- `Contains` through the invariant: membership of the key list. -/
theorem Contains_iff [DecidableEq K] [Inhabited K] {c : LRUCache K V} {ids : List NodeId}
    (hinv : CacheInv c ids) (key : K) :
    Contains c key = true ↔ key ∈ ids.map (keyOf c.lruList) := by
  rcases CacheInv_lookup hinv key with ⟨hmem, hlook⟩ | ⟨j, hj, hkey, hlook⟩
  · simp [Contains, hlook, hmem]
  · simp [Contains, hlook]
    exact ⟨j, hj, hkey⟩

/-! ## Cache operation lemmas -/

theorem mapErase_perm [DecidableEq K] {m m' : NodeMap K} (h : m.Perm m') (k : K) :
    (mapErase m k).Perm (mapErase m' k) := h.filter _

theorem Get_miss [DecidableEq K] [Inhabited V] {c : LRUCache K V} {key : K}
    (h : mapLookup c.cache key = none) : Get c key = some (c, default, false) := by
  unfold Get
  rw [h]

theorem Delete_miss [DecidableEq K] {c : LRUCache K V} {key : K}
    (h : mapLookup c.cache key = none) : Delete c key = some (c, some .notFound) := by
  unfold Delete
  rw [h]

theorem Get_hit [DecidableEq K] [Inhabited K] [Inhabited V] {c : LRUCache K V}
    {ids : List NodeId} (hinv : CacheInv c ids) {key : K} {j : NodeId}
    (hj : j ∈ ids) (hlook : mapLookup c.cache key = some (some j)) :
    ∃ l', Get c key = some ({ c with lruList := l' }, valOf c.lruList j, true) ∧
      CacheInv { c with lruList := l' } (j :: ids.erase j) ∧
      l'.len = c.lruList.len := by
  obtain ⟨hwf, hperm, hknd, hcap, hle⟩ := hinv
  obtain ⟨l', hmv, hwf', hkey', hval', hnid', hlen'⟩ := MoveToFront_ok hwf hj
  have hj' : j ∈ j :: ids.erase j := by simp
  obtain ⟨n', hn', _⟩ := (attachedB_iff l' j).mp (hwf'.2.1 j hj')
  have hval : n'.value = valOf c.lruList j := by
    rw [← hval' j]
    unfold valOf
    rw [hn']
  refine ⟨l', ?_, ?_, hlen'⟩
  · unfold Get
    rw [hlook]
    dsimp only
    rw [hmv]
    dsimp only
    rw [hn']
    dsimp only
    rw [hval]
  · refine ⟨hwf', ?_, ?_, hcap, ?_⟩
    · show c.cache.Perm (tblOf l' (j :: ids.erase j))
      rw [tblOf_congr (fun i _ => hkey' i)]
      exact hperm.trans ((List.perm_cons_erase hj).map _)
    · show ((j :: ids.erase j).map (keyOf l')).Nodup
      rw [List.map_congr_left fun i _ => hkey' i]
      exact ((List.perm_cons_erase hj).map (keyOf c.lruList)).nodup_iff.mp hknd
    · show l'.len ≤ c.capacity
      rw [hlen']
      exact hle

theorem Delete_hit [DecidableEq K] [Inhabited K] [Inhabited V] {c : LRUCache K V}
    {ids : List NodeId} (hinv : CacheInv c ids) {key : K} {j : NodeId}
    (hj : j ∈ ids) (hkey : keyOf c.lruList j = key)
    (hlook : mapLookup c.cache key = some (some j)) :
    ∃ c', Delete c key = some (c', none) ∧
      CacheInv c' (ids.erase j) ∧
      c'.capacity = c.capacity ∧
      Size c' = Size c - 1 ∧
      Contains c' key = false := by
  subst hkey
  obtain ⟨hwf, hperm, hknd, hcap, hle⟩ := hinv
  have hnd : ids.Nodup := hwf.2.2.2.2.2.1
  obtain ⟨l1, hrem, hwf1, hkey1, hval1, hnid1, hlen1, _⟩ := Remove_ok hwf hj
  refine ⟨{ lruList := l1, cache := mapErase c.cache (keyOf c.lruList j),
            capacity := c.capacity }, ?_, ?_, rfl, ?_, ?_⟩
  · unfold Delete
    rw [hlook]
    dsimp only
    rw [hrem]
  · refine ⟨hwf1, ?_, ?_, hcap, ?_⟩
    · show (mapErase c.cache (keyOf c.lruList j)).Perm (tblOf l1 (ids.erase j))
      rw [tblOf_congr (fun i _ => hkey1 i)]
      have h1 := mapErase_perm hperm (keyOf c.lruList j)
      rwa [mapErase_tblOf hnd hknd hj] at h1
    · show ((ids.erase j).map (keyOf l1)).Nodup
      rw [List.map_congr_left fun i _ => hkey1 i]
      exact (((List.perm_cons_erase hj).map (keyOf c.lruList)).nodup_iff.mp hknd).of_cons
    · show l1.len ≤ c.capacity
      rw [hlen1]
      omega
  · show l1.len = c.lruList.len - 1
    exact hlen1
  · show (mapLookup (mapErase c.cache (keyOf c.lruList j)) (keyOf c.lruList j)).isSome = false
    rw [mapLookup_mapErase_self]
    rfl

theorem Set_absent_room [DecidableEq K] [Inhabited K] [Inhabited V] {c : LRUCache K V}
    {ids : List NodeId} (hinv : CacheInv c ids) {key : K}
    (hmem : key ∉ ids.map (keyOf c.lruList)) (hlook : mapLookup c.cache key = none)
    (hroom : c.lruList.len ≠ c.capacity) (value : V) :
    ∃ c' nid, Set c key value = some c' ∧
      CacheInv c' (nid :: ids) ∧
      c'.capacity = c.capacity ∧
      (nid :: ids).map (keyOf c'.lruList) = key :: ids.map (keyOf c.lruList) ∧
      Size c' = Size c + 1 := by
  obtain ⟨hwf, hperm, hknd, hcap, hle⟩ := hinv
  obtain ⟨l3, hpf, hwf3, hkey3, hval3, hkeyn, hvaln, hnid3, hlen3, hnmem, hn0⟩ :=
    PushFront_ok hwf key value
  have hkeys : (c.lruList.nextId :: ids).map (keyOf l3) =
      key :: ids.map (keyOf c.lruList) := by
    rw [List.map_cons, hkeyn]
    congr 1
    exact List.map_congr_left fun i hi => hkey3 i (fun h => hnmem (h ▸ hi))
  refine ⟨{ lruList := l3, cache := mapAssign c.cache key (some c.lruList.nextId),
            capacity := c.capacity }, c.lruList.nextId, ?_, ?_, rfl, hkeys, ?_⟩
  · unfold Set
    rw [hlook]
    dsimp only
    rw [if_neg hroom]
    dsimp only
    rw [hpf]
  · refine ⟨hwf3, ?_, ?_, hcap, ?_⟩
    · show (mapAssign c.cache key (some c.lruList.nextId)).Perm
        (tblOf l3 (c.lruList.nextId :: ids))
      unfold mapAssign
      rw [mapErase_eq_of_not_mem ((mapLookup_eq_none_iff _ _).mp hlook)]
      have ht : tblOf l3 (c.lruList.nextId :: ids) =
          (key, some c.lruList.nextId) :: tblOf c.lruList ids := by
        unfold tblOf
        rw [List.map_cons, hkeyn]
        congr 1
        exact List.map_congr_left fun i hi => by
          rw [hkey3 i (fun h => hnmem (h ▸ hi))]
      rw [ht]
      exact hperm.cons _
    · show ((c.lruList.nextId :: ids).map (keyOf l3)).Nodup
      rw [hkeys]
      exact List.nodup_cons.mpr ⟨hmem, hknd⟩
    · show l3.len ≤ c.capacity
      omega
  · show l3.len = c.lruList.len + 1
    exact hlen3

theorem Set_absent_full [DecidableEq K] [Inhabited K] [Inhabited V] {c : LRUCache K V}
    {xs : List NodeId} {b : NodeId} (hinv : CacheInv c (xs ++ [b])) {key : K}
    (hmem : key ∉ ((xs ++ [b]).map (keyOf c.lruList)))
    (hlook : mapLookup c.cache key = none)
    (hfull : c.lruList.len = c.capacity) (value : V) :
    ∃ c' nid, Set c key value = some c' ∧
      CacheInv c' (nid :: xs) ∧
      c'.capacity = c.capacity ∧
      (nid :: xs).map (keyOf c'.lruList) = key :: xs.map (keyOf c.lruList) ∧
      Size c' = Size c := by
  obtain ⟨hwf, hperm, hknd, hcap, hle⟩ := hinv
  have hnd : (xs ++ [b]).Nodup := hwf.2.2.2.2.2.1
  have hbxs : b ∉ xs := by
    rw [List.nodup_append] at hnd
    exact fun h => hnd.2.2 h (by simp)
  have hbmem : b ∈ xs ++ [b] := by simp
  obtain ⟨l2, hpop, hwf2, hkey2, hval2, hnid2, hlen2, nb, hnb, hnbk⟩ := PopBack_ok hwf
  obtain ⟨l3, hpf, hwf3, hkey3, hval3, hkeyn, hvaln, hnid3, hlen3, hnmem, hn0⟩ :=
    PushFront_ok hwf2 key value
  have herase : (xs ++ [b]).erase b = xs := by
    rw [List.erase_append_right _ hbxs, List.erase_cons_head, List.append_nil]
  have hkeyxs : ∀ i ∈ xs, keyOf l3 i = keyOf c.lruList i := by
    intro i hi
    rw [hkey3 i (fun h => hnmem (h ▸ hi)), hkey2 i]
  have hkeys : (l2.nextId :: xs).map (keyOf l3) = key :: xs.map (keyOf c.lruList) := by
    rw [List.map_cons, hkeyn]
    congr 1
    exact List.map_congr_left hkeyxs
  refine ⟨{ lruList := l3,
            cache := mapAssign (mapErase c.cache (keyOf c.lruList b)) key (some l2.nextId),
            capacity := c.capacity }, l2.nextId, ?_, ?_, rfl, hkeys, ?_⟩
  · unfold Set
    rw [hlook]
    dsimp only
    rw [if_pos hfull]
    rw [hpop]
    dsimp only
    rw [hnb]
    dsimp only
    rw [hnbk, hpf]
  · refine ⟨hwf3, ?_, ?_, hcap, ?_⟩
    · show (mapAssign (mapErase c.cache (keyOf c.lruList b)) key (some l2.nextId)).Perm
        (tblOf l3 (l2.nextId :: xs))
      unfold mapAssign
      rw [mapErase_eq_of_not_mem
        (fun h => ((mapLookup_eq_none_iff _ _).mp hlook) (mem_keys_of_mem_keys_mapErase h))]
      have ht : tblOf l3 (l2.nextId :: xs) =
          (key, some l2.nextId) :: tblOf c.lruList xs := by
        unfold tblOf
        rw [List.map_cons, hkeyn]
        congr 1
        exact List.map_congr_left fun i hi => by rw [hkeyxs i hi]
      rw [ht]
      refine List.Perm.cons _ ?_
      have h1 := mapErase_perm hperm (keyOf c.lruList b)
      rwa [mapErase_tblOf hnd hknd hbmem, herase] at h1
    · show ((l2.nextId :: xs).map (keyOf l3)).Nodup
      rw [hkeys]
      refine List.nodup_cons.mpr ⟨?_, ?_⟩
      · exact fun h => hmem (by
          rw [List.map_append] at *
          exact List.mem_append.mpr (Or.inl h))
      · rw [List.map_append, List.nodup_append] at hknd
        exact hknd.1
    · show l3.len ≤ c.capacity
      omega
  · show l3.len = c.lruList.len
    omega

theorem Set_present [DecidableEq K] [Inhabited K] [Inhabited V] {c : LRUCache K V}
    {ids : List NodeId} (hinv : CacheInv c ids) {key : K} {j : NodeId}
    (hj : j ∈ ids) (hkey : keyOf c.lruList j = key)
    (hlook : mapLookup c.cache key = some (some j)) (value : V) :
    ∃ c' nid, Set c key value = some c' ∧
      CacheInv c' (nid :: ids.erase j) ∧
      c'.capacity = c.capacity ∧
      Size c' = Size c := by
  subst hkey
  obtain ⟨hwf, hperm, hknd, hcap, hle⟩ := hinv
  have hnd : ids.Nodup := hwf.2.2.2.2.2.1
  obtain ⟨l1, hrem, hwf1, hkey1, hval1, hnid1, hlen1, _⟩ := Remove_ok hwf hj
  have hroom1 : l1.len ≠ c.capacity := by
    rw [hlen1]
    omega
  obtain ⟨l3, hpf, hwf3, hkey3, hval3, hkeyn, hvaln, hnid3, hlen3, hnmem, hn0⟩ :=
    PushFront_ok hwf1 (keyOf c.lruList j) value
  have hkeyer : ∀ i ∈ ids.erase j, keyOf l3 i = keyOf c.lruList i := by
    intro i hi
    rw [hkey3 i (fun h => hnmem (h ▸ hi)), hkey1 i]
  refine ⟨{ lruList := l3,
            cache := mapAssign c.cache (keyOf c.lruList j) (some l1.nextId),
            capacity := c.capacity }, l1.nextId, ?_, ?_, rfl, ?_⟩
  · unfold Set
    rw [hlook]
    dsimp only
    rw [hrem]
    dsimp only
    rw [if_neg hroom1]
    dsimp only
    rw [hpf]
  · refine ⟨hwf3, ?_, ?_, hcap, ?_⟩
    · show (mapAssign c.cache (keyOf c.lruList j) (some l1.nextId)).Perm
        (tblOf l3 (l1.nextId :: ids.erase j))
      unfold mapAssign
      have ht : tblOf l3 (l1.nextId :: ids.erase j) =
          (keyOf c.lruList j, some l1.nextId) :: tblOf c.lruList (ids.erase j) := by
        unfold tblOf
        rw [List.map_cons, hkeyn]
        congr 1
        exact List.map_congr_left fun i hi => by rw [hkeyer i hi]
      rw [ht]
      refine List.Perm.cons _ ?_
      have h1 := mapErase_perm hperm (keyOf c.lruList j)
      rwa [mapErase_tblOf hnd hknd hj] at h1
    · show ((l1.nextId :: ids.erase j).map (keyOf l3)).Nodup
      rw [List.map_cons, hkeyn, List.map_congr_left hkeyer]
      refine List.nodup_cons.mpr ⟨?_, ?_⟩
      · intro h
        obtain ⟨i, hi, hik⟩ := List.mem_map.mp h
        have hieq : i = j := List.inj_on_of_nodup_map hknd
          ((hnd.mem_erase_iff.mp hi).2) hj hik
        exact (hnd.mem_erase_iff.mp hi).1 hieq
      · exact (((List.perm_cons_erase hj).map (keyOf c.lruList)).nodup_iff.mp hknd).of_cons
    · show l3.len ≤ c.capacity
      have hpos : 0 < ids.length := List.length_pos.mpr (List.ne_nil_of_mem hj)
      omega
  · show l3.len = c.lruList.len
    omega

theorem Set_cap0_panic [DecidableEq K] [Inhabited K] [Inhabited V] {c : LRUCache K V}
    (hwf : WF c.lruList []) {key : K} (hlook : mapLookup c.cache key = none)
    (hfull : c.lruList.len = c.capacity) (value : V) :
    Set c key value = none := by
  have hback : Back c.lruList = none := by
    rw [Back_eq hwf]
    rfl
  have hpop : PopBack c.lruList = .panic := by
    unfold PopBack
    rw [hback]
    rfl
  unfold Set
  rw [hlook]
  dsimp only
  rw [if_pos hfull]
  rw [hpop]

/-! ## `Flush` -/

theorem flushLoop_ok [DecidableEq K] [Inhabited K] [Inhabited V] (m : NodeMap K) :
    ∀ (l : LRUList K V) (ids : List NodeId), WF l ids →
      (m.map Prod.snd).Perm (ids.map some) →
      ∃ l', flushLoop l m = some l' ∧ WF l' [] := by
  induction m with
  | nil =>
    intro l ids hwf hperm
    have hids : ids = [] := by
      have h := hperm.symm.eq_nil
      simpa using h
    subst hids
    exact ⟨l, rfl, hwf⟩
  | cons p rest ih =>
    intro l ids hwf hperm
    obtain ⟨k, v⟩ := p
    have hv : v ∈ ids.map some := hperm.subset (by simp)
    obtain ⟨j, hj, hvj⟩ := List.mem_map.mp hv
    subst hvj
    obtain ⟨l1, hrem, hwf1, _, _, _, _, _⟩ := Remove_ok hwf hj
    have hresperm : (rest.map Prod.snd).Perm ((ids.erase j).map some) := by
      have h1 := (List.cons_perm_iff_perm_erase.mp (by simpa using hperm)).2
      rwa [← List.map_erase (fun a b h => Option.some.inj h)] at h1
    obtain ⟨l', hloop, hwf'⟩ := ih l1 (ids.erase j) hwf1 hresperm
    refine ⟨l', ?_, hwf'⟩
    show flushLoop l ((k, some j) :: rest) = some l'
    unfold flushLoop
    rw [hrem]
    exact hloop

theorem Flush_ok [DecidableEq K] [Inhabited K] [Inhabited V] {c : LRUCache K V}
    {ids : List NodeId} (hinv : CacheInv c ids) :
    ∃ c', Flush c = some c' ∧ CacheInv c' [] ∧ c'.capacity = c.capacity ∧
      Size c' = 0 ∧ c'.cache = [] := by
  obtain ⟨hwf, hperm, hknd, hcap, hle⟩ := hinv
  have hsnd : (c.cache.map Prod.snd).Perm (ids.map some) := by
    have h := hperm.map Prod.snd
    simpa [tblOf, List.map_map, Function.comp] using h
  obtain ⟨l', hloop, hwf'⟩ := flushLoop_ok c.cache c.lruList ids hwf hsnd
  have hlen0 : l'.len = 0 := by
    have h := hwf'.2.2.2.2.2.2.1
    simpa using h
  refine ⟨{ lruList := l', cache := [], capacity := c.capacity }, ?_, ?_, rfl, hlen0, rfl⟩
  · unfold Flush
    rw [hloop]
  · refine ⟨hwf', by simp [tblOf], by simp, hcap, ?_⟩
    show l'.len ≤ c.capacity
    rw [hlen0]
    exact hcap

/-! ## The invariant holds initially and is preserved by every completed step -/

theorem CacheInv_new [DecidableEq K] [Inhabited K] [Inhabited V] {cap : Int}
    {c : LRUCache K V} (h : NewLRUCache cap = .ok c) : CacheInv c [] ∧ c.capacity = cap := by
  unfold NewLRUCache at h
  by_cases hc : cap < 0
  · rw [if_pos hc] at h
    cases h
  · rw [if_neg hc] at h
    injection h with h'
    subst h'
    refine ⟨⟨⟨rfl, ?_, ?_, ?_, ?_, List.nodup_nil, rfl, ⟨rfl, rfl⟩⟩, ?_, ?_, ?_, ?_⟩, rfl⟩
    · intro i hi
      simp at hi
    · intro i hi
      simp at hi
    · intro i hi
      simp at hi
    · exact Nat.zero_lt_one
    · exact List.Perm.refl _
    · exact List.nodup_nil
    · show (0 : Int) ≤ cap
      omega
    · show (0 : Int) ≤ cap
      omega

theorem step_preserves [DecidableEq K] [Inhabited K] [Inhabited V] {c : LRUCache K V}
    {ids : List NodeId} (hinv : CacheInv c ids) (op : CacheOp K V) {c' : LRUCache K V}
    (hst : step c op = some c') : ∃ ids', CacheInv c' ids' ∧ c'.capacity = c.capacity := by
  cases op with
  | contains k =>
    have hc : c' = c := by
      simpa [step] using hst.symm
    subst hc
    exact ⟨ids, hinv, rfl⟩
  | set k v =>
    rcases CacheInv_lookup hinv k with ⟨hmem, hlook⟩ | ⟨j, hj, hkey, hlook⟩
    · by_cases hfull : c.lruList.len = c.capacity
      · rcases List.eq_nil_or_concat ids with rfl | ⟨xs, b, hu⟩
        · have hnone := Set_cap0_panic hinv.1 hlook hfull v
          rw [step, hnone] at hst
          cases hst
        · rw [List.concat_eq_append] at hu
          subst hu
          obtain ⟨c'', nid, hset, hinv', hcap', _, _⟩ :=
            Set_absent_full hinv hmem hlook hfull v
          rw [step, hset] at hst
          injection hst with h
          subst h
          exact ⟨nid :: xs, hinv', hcap'⟩
      · obtain ⟨c'', nid, hset, hinv', hcap', _, _⟩ :=
          Set_absent_room hinv hmem hlook hfull v
        rw [step, hset] at hst
        injection hst with h
        subst h
        exact ⟨nid :: ids, hinv', hcap'⟩
    · obtain ⟨c'', nid, hset, hinv', hcap', _⟩ := Set_present hinv hj hkey hlook v
      rw [step, hset] at hst
      injection hst with h
      subst h
      exact ⟨nid :: ids.erase j, hinv', hcap'⟩
  | get k =>
    rcases CacheInv_lookup hinv k with ⟨hmem, hlook⟩ | ⟨j, hj, hkey, hlook⟩
    · rw [step, Get_miss hlook] at hst
      injection hst with h
      subst h
      exact ⟨ids, hinv, rfl⟩
    · obtain ⟨l', hget, hinv', _⟩ := Get_hit hinv hj hlook
      rw [step, hget] at hst
      injection hst with h
      subst h
      exact ⟨j :: ids.erase j, hinv', rfl⟩
  | del k =>
    rcases CacheInv_lookup hinv k with ⟨hmem, hlook⟩ | ⟨j, hj, hkey, hlook⟩
    · rw [step, Delete_miss hlook] at hst
      injection hst with h
      subst h
      exact ⟨ids, hinv, rfl⟩
    · obtain ⟨c'', hdel, hinv', hcap', _, _⟩ := Delete_hit hinv hj hkey hlook
      rw [step, hdel] at hst
      injection hst with h
      subst h
      exact ⟨ids.erase j, hinv', hcap'⟩
  | flush =>
    obtain ⟨c'', hfl, hinv', hcap', _, _⟩ := Flush_ok hinv
    rw [step, hfl] at hst
    injection hst with h
    subst h
    exact ⟨[], hinv', hcap'⟩

theorem runOps_preserves [DecidableEq K] [Inhabited K] [Inhabited V]
    (ops : List (CacheOp K V)) :
    ∀ {c : LRUCache K V} {ids : List NodeId}, CacheInv c ids →
      ∀ {c' : LRUCache K V}, runOps c ops = some c' →
      ∃ ids', CacheInv c' ids' ∧ c'.capacity = c.capacity := by
  induction ops with
  | nil =>
    intro c ids hinv c' hrun
    have h : c = c' := by simpa [runOps] using hrun
    subst h
    exact ⟨ids, hinv, rfl⟩
  | cons op ops ih =>
    intro c ids hinv c' hrun
    unfold runOps at hrun
    cases hst : step c op with
    | none => rw [hst] at hrun; cases hrun
    | some c1 =>
      rw [hst] at hrun
      obtain ⟨ids1, hinv1, hcap1⟩ := step_preserves hinv op hst
      obtain ⟨ids', hinv', hcap'⟩ := ih hinv1 hrun
      exact ⟨ids', hinv', hcap'.trans hcap1⟩

/-! ## Auxiliary lemmas for the claim theorems -/

theorem lookup_none_of_inv [DecidableEq K] [Inhabited K] {c : LRUCache K V}
    {ids : List NodeId} (hinv : CacheInv c ids) {key : K}
    (h : key ∉ ids.map (keyOf c.lruList)) : mapLookup c.cache key = none := by
  rcases CacheInv_lookup hinv key with ⟨_, hl⟩ | ⟨j, hj, hk, _⟩
  · exact hl
  · exact absurd (List.mem_map.mpr ⟨j, hj, hk⟩) h

theorem runOps_append [DecidableEq K] [Inhabited V] (ops1 ops2 : List (CacheOp K V)) :
    ∀ c : LRUCache K V, runOps c (ops1 ++ ops2) =
      match runOps c ops1 with
      | none => none
      | some c1 => runOps c1 ops2 := by
  induction ops1 with
  | nil => intro c; rfl
  | cons op ops ih =>
    intro c
    show (match step c op with
          | none => none
          | some c1 => runOps c1 (ops ++ ops2)) =
      match (match step c op with
             | none => none
             | some c1 => runOps c1 ops) with
      | none => none
      | some c1 => runOps c1 ops2
    cases step c op with
    | none => rfl
    | some c1 => exact ih c1

/-- Setting a block of fresh, pairwise-distinct keys while room remains:
each `Set` takes the absent-with-room path, so the key order (front to
back) accumulates in reverse and the size grows by one per key. -/
theorem sets_distinct_aux [DecidableEq K] [Inhabited K] [Inhabited V]
    (ks : List K) (v : K → V) :
    ∀ {c : LRUCache K V} {ids : List NodeId}, CacheInv c ids →
      (∀ k ∈ ks, k ∉ ids.map (keyOf c.lruList)) → ks.Nodup →
      (ids.length : Int) + ks.length ≤ c.capacity →
      ∃ c' ids', runOps c (ks.map (fun k => CacheOp.set k (v k))) = some c' ∧
        CacheInv c' ids' ∧ c'.capacity = c.capacity ∧
        ids'.map (keyOf c'.lruList) = ks.reverse ++ ids.map (keyOf c.lruList) ∧
        Size c' = Size c + ks.length := by
  induction ks with
  | nil =>
    intro c ids hinv _ _ _
    exact ⟨c, ids, rfl, hinv, rfl, by simp, by simp⟩
  | cons k ks ih =>
    intro c ids hinv hfresh hnd hcap
    have hlen : c.lruList.len = (ids.length : Int) := hinv.1.2.2.2.2.2.2.1
    have hroom : c.lruList.len ≠ c.capacity := by
      rw [hlen]
      have : (ks.length : Int) + 1 = ((k :: ks).length : Int) := by simp
      omega
    have hmem : k ∉ ids.map (keyOf c.lruList) := hfresh k (by simp)
    have hlook : mapLookup c.cache k = none := lookup_none_of_inv hinv hmem
    obtain ⟨c1, nid, hset, hinv1, hcap1, hkeys1, hsize1⟩ :=
      Set_absent_room hinv hmem hlook hroom (v k)
    have hfresh1 : ∀ k' ∈ ks, k' ∉ (nid :: ids).map (keyOf c1.lruList) := by
      intro k' hk'
      rw [hkeys1]
      intro hcon
      rcases List.mem_cons.mp hcon with heq | hmem'
      · exact (List.nodup_cons.mp hnd).1 (heq ▸ hk')
      · exact hfresh k' (List.mem_cons_of_mem k hk') hmem'
    have hcap2 : ((nid :: ids).length : Int) + ks.length ≤ c1.capacity := by
      rw [hcap1]
      have : ((k :: ks).length : Int) = (ks.length : Int) + 1 := by simp
      simp only [List.length_cons]
      push_cast
      omega
    obtain ⟨c', ids', hrun, hinv', hcap', hkeys', hsize'⟩ :=
      ih hinv1 hfresh1 (List.nodup_cons.mp hnd).2 hcap2
    refine ⟨c', ids', ?_, hinv', hcap'.trans hcap1, ?_, ?_⟩
    · show runOps c (CacheOp.set k (v k) :: ks.map (fun k => CacheOp.set k (v k))) = some c'
      unfold runOps
      rw [show step c (CacheOp.set k (v k)) = some c1 from hset]
      exact hrun
    · rw [hkeys', hkeys1]
      simp
    · rw [hsize', hsize1]
      simp
      ring


/-! ## Decidability of the invariants (used by concrete witnesses) -/

instance (l : LRUList K V) (ids : List NodeId) : Decidable (WF l ids) := by
  unfold WF
  infer_instance

instance [DecidableEq K] [Inhabited K] (c : LRUCache K V) (ids : List NodeId) :
    Decidable (CacheInv c ids) := by
  unfold CacheInv
  infer_instance

/-! ## The claims -/

/-- Claim C1 (code bug): the spec says a capacity-0 cache is legal and
`Set(5,5)` completes with the entry immediately evicted
(`Contains(5) == false`, `Size() == 0`).  In the code, `Set` on a
capacity-0 cache finds `Size() == capacity` (0 = 0) while the list is
empty, calls `PopBack`, whose `Back()` is nil on an empty list, and
`Remove(nil)` dereferences the nil pointer: the operation panics instead
of completing.  This theorem evaluates the code at the failing input. -/
theorem C1_capacity0_set_panics :
    afterOps (K := Nat) (V := Nat) 0 [.set 5 5] = none := rfl

/-- Claim C2 (code bug): the spec says `PopFront`/`PopBack` on an empty
list return the `IsRoot` error and never panic.  In the code, `Front()`
and `Back()` filter out the sentinel and return nil on an empty list, so
`Remove(nil)` dereferences the nil pointer at `at.list.Load()`: both pops
panic instead of returning `ErrRoot`.  This theorem evaluates the code on
the empty list. -/
theorem C2_pop_empty_panics :
    PopBack (NewLRUList : LRUList Nat Nat) = .panic ∧
    PopFront (NewLRUList : LRUList Nat Nat) = .panic := ⟨rfl, rfl⟩

/-- Claim C3: for every cache reachable from `NewLRUCache(capacity)` by a
finite sequence of completed `Set`/`Get`/`Delete`/`Contains`/`Flush`
operations, `0 ≤ Size() ≤ Capacity()`. -/
theorem C3_size_within_capacity {K V : Type} [DecidableEq K] [Inhabited K] [Inhabited V]
    (cap : Int) (c0 : LRUCache K V) (h0 : NewLRUCache cap = .ok c0)
    (ops : List (CacheOp K V)) (c : LRUCache K V) (hrun : runOps c0 ops = some c) :
    0 ≤ Size c ∧ Size c ≤ Capacity c := by
  obtain ⟨hinv0, _⟩ := CacheInv_new h0
  obtain ⟨ids, hinv, _⟩ := runOps_preserves ops hinv0 hrun
  obtain ⟨hwf, _, _, _, hle⟩ := hinv
  refine ⟨?_, hle⟩
  show (0 : Int) ≤ c.lruList.len
  rw [hwf.2.2.2.2.2.2.1]
  exact Int.natCast_nonneg _

def c3runStart : LRUCache Nat Nat := { lruList := NewLRUList, cache := [], capacity := 2 }

def c3runProgram : List (CacheOp Nat Nat) :=
  [.set 1 1, .set 2 2, .get 1, .set 3 3, .del 2, .flush, .set 4 4]

def c3runEnd : LRUCache Nat Nat :=
  match runOps c3runStart c3runProgram with
  | some c => c
  | none => c3runStart

theorem C3_size_within_capacity_witness :
    NewLRUCache 2 = Except.ok c3runStart ∧
    runOps c3runStart c3runProgram = some c3runEnd ∧
    (0 ≤ Size c3runEnd ∧ Size c3runEnd ≤ Capacity c3runEnd) :=
  ⟨rfl, rfl, C3_size_within_capacity 2 c3runStart rfl c3runProgram c3runEnd rfl⟩

/-- Claim C4: on a fresh capacity-2 cache, after `Set(1,1); Set(2,2)` the
call `Get(1)` returns `(1, true)`, and after the full sequence
`Set(1,1); Set(2,2); Get(1); Set(3,3)` the cache contains keys 1 and 3
but not 2, with `Size() == 2`: the `Get` promoted key 1, so key 2 was
evicted. -/
theorem C4_promotion_scenario :
    (((afterOps (K := Nat) (V := Nat) 2 [.set 1 1, .set 2 2]).bind
        (fun c => Get c 1)).map (fun r => (r.2.1, r.2.2))) = some (1, true) ∧
    (afterOps (K := Nat) (V := Nat) 2 [.set 1 1, .set 2 2, .get 1, .set 3 3]).map
        (fun c => (Contains c 1, Contains c 2, Contains c 3, Size c)) =
      some (true, false, true, 2) := ⟨rfl, rfl⟩

/-- Claim C5: for every capacity `C ≥ 1` and every sequence of `Set`
calls on `C + 1` pairwise-distinct keys on a fresh cache with no
intervening `Get`, exactly the first-inserted key is evicted: afterwards
the first key is absent, the remaining `C` keys are present, and the
size is `C`. -/
theorem C5_first_inserted_evicted [DecidableEq K] [Inhabited K] [Inhabited V]
    (C : Nat) (hC : 1 ≤ C) (k0 : K) (rest : List K) (v : K → V)
    (hlen : (k0 :: rest).length = C + 1) (hnd : (k0 :: rest).Nodup) :
    ∃ c, afterOps (C : Int) ((k0 :: rest).map (fun k => CacheOp.set k (v k))) = some c ∧
      Contains c k0 = false ∧
      (∀ k ∈ rest, Contains c k = true) ∧
      Size c = (C : Int) := by
  have hnn : ¬((C : Int) < 0) := by omega
  have hnew : NewLRUCache (K := K) (V := V) (C : Int) =
      .ok { lruList := NewLRUList, cache := [], capacity := (C : Int) } := by
    unfold NewLRUCache
    rw [if_neg hnn]
  have hinv0 := (CacheInv_new hnew).1
  rcases List.eq_nil_or_concat rest with h | ⟨mid, klast, hu⟩
  · subst h
    simp at hlen
    omega
  rw [List.concat_eq_append] at hu
  subst hu
  -- distinctness pieces
  rw [List.nodup_cons] at hnd
  obtain ⟨hk0, hnd2⟩ := hnd
  rw [List.nodup_append] at hnd2
  obtain ⟨hmidnd, _, hdisj⟩ := hnd2
  have hk0mid : k0 ∉ mid := fun h => hk0 (List.mem_append.mpr (Or.inl h))
  have hk0kl : k0 ≠ klast := fun h => hk0 (List.mem_append.mpr (Or.inr (by simp [h])))
  have hklmid : klast ∉ mid := fun h => hdisj h (by simp)
  have hndfirst : (k0 :: mid).Nodup := List.nodup_cons.mpr ⟨hk0mid, hmidnd⟩
  have hmidlen : mid.length + 1 = C := by
    simp [List.length_append] at hlen
    omega
  have hlenmid : ((k0 :: mid).length : Int) = (C : Int) := by
    simp only [List.length_cons]
    omega
  -- the first C sets
  have hfreshinit : ∀ k ∈ k0 :: mid,
      k ∉ ([] : List NodeId).map (keyOf (NewLRUList (K := K) (V := V))) := by
    intro k _
    simp
  have hcapinit : ((([] : List NodeId)).length : Int) + ((k0 :: mid).length : Int) ≤
      (C : Int) := by
    simp only [List.length_nil, Nat.cast_zero, zero_add]
    rw [hlenmid]
  obtain ⟨c1, ids1, hrun1, hinv1, hcap1, hkeys1, hsize1⟩ :=
    sets_distinct_aux (k0 :: mid) v hinv0 hfreshinit hndfirst hcapinit
  have hsize1' : Size c1 = (C : Int) := by
    rw [hsize1]
    show (0 : Int) + _ = _
    rw [zero_add, hlenmid]
  have hfull : c1.lruList.len = c1.capacity := by
    show Size c1 = _
    rw [hsize1', hcap1]
  -- ids1 is nonempty, split off its back
  have hlenids1 : c1.lruList.len = (ids1.length : Int) := hinv1.1.2.2.2.2.2.2.1
  have hids1ne : ids1 ≠ [] := by
    intro h
    subst h
    rw [show Size c1 = c1.lruList.len from rfl, hlenids1] at hsize1'
    simp at hsize1'
    omega
  rcases List.eq_nil_or_concat ids1 with h | ⟨xs, b, hu1⟩
  · exact absurd h hids1ne
  rw [List.concat_eq_append] at hu1
  subst hu1
  -- decompose the accumulated key order
  have hkeysplit : xs.map (keyOf c1.lruList) = mid.reverse ∧
      keyOf c1.lruList b = k0 := by
    have h1 : xs.map (keyOf c1.lruList) ++ [keyOf c1.lruList b] =
        mid.reverse ++ [k0] := by
      have := hkeys1
      simp only [List.map_append, List.map_cons, List.map_nil, List.reverse_cons,
        List.append_nil] at this ⊢
      simpa using this
    constructor
    · have := congrArg List.dropLast h1
      simpa using this
    · have := congrArg List.getLast? h1
      simp [List.getLast?_concat] at this
      exact this
  -- last key is absent
  have hmem2 : klast ∉ (xs ++ [b]).map (keyOf c1.lruList) := by
    rw [List.map_append, List.map_singleton, hkeysplit.1, hkeysplit.2]
    intro h
    rcases List.mem_append.mp h with h1 | h1
    · exact hklmid (List.mem_reverse.mp h1)
    · have hkk : klast = k0 := by simpa using h1
      exact hk0kl hkk.symm
  have hlook2 : mapLookup c1.cache klast = none := lookup_none_of_inv hinv1 hmem2
  obtain ⟨c2, nid, hset2, hinv2, hcap2, hkeys2, hsize2⟩ :=
    Set_absent_full hinv1 hmem2 hlook2 hfull (v klast)
  have hkeys2' : (nid :: xs).map (keyOf c2.lruList) = klast :: mid.reverse := by
    rw [hkeys2, hkeysplit.1]
  refine ⟨c2, ?_, ?_, ?_, ?_⟩
  · unfold afterOps
    rw [hnew]
    dsimp only
    have hsplit : (k0 :: (mid ++ [klast])).map (fun k => CacheOp.set k (v k)) =
        ((k0 :: mid).map (fun k => CacheOp.set k (v k))) ++
          [CacheOp.set klast (v klast)] := by
      simp
    rw [hsplit, runOps_append, hrun1]
    show (match step c1 (CacheOp.set klast (v klast)) with
          | none => none
          | some c' => runOps c' []) = some c2
    rw [show step c1 (CacheOp.set klast (v klast)) = some c2 from hset2]
    rfl
  · have hiff := Contains_iff hinv2 k0
    rw [hkeys2'] at hiff
    refine Bool.eq_false_iff.mpr fun h => ?_
    rcases List.mem_cons.mp (hiff.mp h) with h1 | h1
    · exact hk0kl h1
    · exact hk0mid (List.mem_reverse.mp h1)
  · intro k hk
    have hiff := Contains_iff hinv2 k
    rw [hkeys2'] at hiff
    refine hiff.mpr ?_
    rcases List.mem_append.mp hk with h1 | h1
    · exact List.mem_cons_of_mem _ (List.mem_reverse.mpr h1)
    · simp at h1
      simp [h1]
  · rw [hsize2, hsize1']


theorem C5_first_inserted_evicted_witness :
    (1 ≤ 2 ∧ ([10, 20, 30] : List Nat).length = 2 + 1 ∧ ([10, 20, 30] : List Nat).Nodup) ∧
    (∃ c, afterOps ((2 : Nat) : Int)
        (((10 : Nat) :: [20, 30]).map (fun k => CacheOp.set k (id k))) = some c ∧
      Contains c 10 = false ∧
      (∀ k ∈ ([20, 30] : List Nat), Contains c k = true) ∧
      Size c = ((2 : Nat) : Int)) :=
  ⟨⟨by decide, by decide, by decide⟩,
    C5_first_inserted_evicted 2 (by decide) 10 [20, 30] id (by decide) (by decide)⟩

/-- Claim C6: after every completed cache operation the lookup table and
the list agree: the table is (a permutation of) the per-node table of the
well-formed list order, node keys are pairwise distinct, and the number
of table entries equals the list length (`Size`). -/
theorem C6_table_list_agree {K V : Type} [DecidableEq K] [Inhabited K] [Inhabited V]
    (cap : Int) (c0 : LRUCache K V) (h0 : NewLRUCache cap = .ok c0)
    (ops : List (CacheOp K V)) (c : LRUCache K V) (hrun : runOps c0 ops = some c) :
    ∃ ids : List NodeId,
      WF c.lruList ids ∧
      c.cache.Perm (tblOf c.lruList ids) ∧
      (ids.map (keyOf c.lruList)).Nodup ∧
      (c.cache.length : Int) = Size c := by
  obtain ⟨hinv0, _⟩ := CacheInv_new h0
  obtain ⟨ids, hinv, _⟩ := runOps_preserves ops hinv0 hrun
  obtain ⟨hwf, hperm, hknd, _, _⟩ := hinv
  refine ⟨ids, hwf, hperm, hknd, ?_⟩
  rw [hperm.length_eq]
  show ((tblOf c.lruList ids).length : Int) = c.lruList.len
  rw [show (tblOf c.lruList ids).length = ids.length from by simp [tblOf]]
  rw [hwf.2.2.2.2.2.2.1]

def c6runStart : LRUCache Nat Nat := { lruList := NewLRUList, cache := [], capacity := 3 }

def c6runProgram : List (CacheOp Nat Nat) :=
  [.set 1 1, .set 2 2, .set 3 3, .set 4 4, .get 3, .del 4]

def c6runEnd : LRUCache Nat Nat :=
  match runOps c6runStart c6runProgram with
  | some c => c
  | none => c6runStart

theorem C6_table_list_agree_witness :
    NewLRUCache 3 = Except.ok c6runStart ∧
    runOps c6runStart c6runProgram = some c6runEnd ∧
    (∃ ids : List NodeId,
      WF c6runEnd.lruList ids ∧
      c6runEnd.cache.Perm (tblOf c6runEnd.lruList ids) ∧
      (ids.map (keyOf c6runEnd.lruList)).Nodup ∧
      (c6runEnd.cache.length : Int) = Size c6runEnd) :=
  ⟨rfl, rfl, C6_table_list_agree 3 c6runStart rfl c6runProgram c6runEnd rfl⟩

/-- Claim C7: `Get` leaves the size and the key set unchanged.  On a miss
it returns the zero value and `false` with no state change at all; on a
hit it returns the stored value and `true`, only moving the key's node to
the front of the recency order, preserving `Size` and every `Contains`
observation. -/
theorem C7_get_frame {K V : Type} [DecidableEq K] [Inhabited K] [Inhabited V]
    {c : LRUCache K V} {ids : List NodeId} (hinv : CacheInv c ids) (key : K) :
    (Contains c key = false → Get c key = some (c, default, false)) ∧
    (Contains c key = true →
      ∃ l' j, j ∈ ids ∧ keyOf c.lruList j = key ∧
        Get c key = some ({ c with lruList := l' }, valOf c.lruList j, true) ∧
        CacheInv { c with lruList := l' } (j :: ids.erase j) ∧
        Size { c with lruList := l' } = Size c ∧
        (∀ k, Contains { c with lruList := l' } k = Contains c k)) := by
  rcases CacheInv_lookup hinv key with ⟨hmem, hlook⟩ | ⟨j, hj, hkey, hlook⟩
  · refine ⟨fun _ => Get_miss hlook, fun hc => ?_⟩
    simp [Contains, hlook] at hc
  · refine ⟨fun hc => ?_, fun _ => ?_⟩
    · simp [Contains, hlook] at hc
    · obtain ⟨l', hget, hinv', hlen'⟩ := Get_hit hinv hj hlook
      exact ⟨l', j, hj, hkey, hget, hinv', hlen', fun _ => rfl⟩

def witCache2 : LRUCache Nat Nat :=
  match afterOps 2 [.set 1 1, .set 2 2] with
  | some c => c
  | none => { lruList := NewLRUList, cache := [], capacity := 2 }

theorem C7_get_frame_witness :
    CacheInv witCache2 [2, 1] ∧
    Get witCache2 9 = some (witCache2, default, false) := by
  have hI : CacheInv witCache2 [2, 1] := by decide
  exact ⟨hI, (C7_get_frame hI 9).1 (by decide)⟩

/-- Claim C8: `Delete` on an absent key returns the `NotFound` error and
leaves the cache state unchanged; `Delete` on a present key removes it
from both the table and the list (the key is gone, the size drops by
one, the invariant holds on the remaining nodes) and returns no error. -/
theorem C8_delete_spec {K V : Type} [DecidableEq K] [Inhabited K] [Inhabited V]
    {c : LRUCache K V} {ids : List NodeId} (hinv : CacheInv c ids) (key : K) :
    (Contains c key = false → Delete c key = some (c, some DErr.notFound)) ∧
    (Contains c key = true →
      ∃ c' j, j ∈ ids ∧ keyOf c.lruList j = key ∧
        Delete c key = some (c', none) ∧
        CacheInv c' (ids.erase j) ∧
        Contains c' key = false ∧
        Size c' = Size c - 1 ∧
        c'.capacity = c.capacity) := by
  rcases CacheInv_lookup hinv key with ⟨hmem, hlook⟩ | ⟨j, hj, hkey, hlook⟩
  · refine ⟨fun _ => Delete_miss hlook, fun hc => ?_⟩
    simp [Contains, hlook] at hc
  · refine ⟨fun hc => ?_, fun _ => ?_⟩
    · simp [Contains, hlook] at hc
    · obtain ⟨c', hdel, hinv', hcap', hsize', hcon'⟩ := Delete_hit hinv hj hkey hlook
      exact ⟨c', j, hj, hkey, hdel, hinv', hcon', hsize', hcap'⟩

theorem C8_delete_spec_witness :
    CacheInv witCache2 [2, 1] ∧
    Delete witCache2 9 = some (witCache2, some DErr.notFound) := by
  have hI : CacheInv witCache2 [2, 1] := by decide
  exact ⟨hI, (C8_delete_spec hI 9).1 (by decide)⟩

/-- Claim C9: on a well-formed list, `PushFront` and `PushBack` never hit
the internally discarded error branch for the freshly created node: both
return a non-nil node pointer (never the nil that a failed `insert` would
produce), the node ends up at the front (resp. back), and the length
grows by exactly one. -/
theorem C9_push_never_fails {K V : Type} [DecidableEq K] [Inhabited K] [Inhabited V]
    {l : LRUList K V} {ids : List NodeId} (hwf : WF l ids) (key : K) (value : V) :
    (∃ lf, PushFront l key value = some (some l.nextId, lf) ∧
      WF lf (l.nextId :: ids) ∧ Front lf = some l.nextId ∧ lf.len = l.len + 1) ∧
    (∃ lb, PushBack l key value = some (some l.nextId, lb) ∧
      WF lb (ids ++ [l.nextId]) ∧ Back lb = some l.nextId ∧ lb.len = l.len + 1) := by
  constructor
  · obtain ⟨lf, hpf, hwf', _, _, _, _, _, hlen, _, _⟩ := PushFront_ok hwf key value
    refine ⟨lf, hpf, hwf', ?_, hlen⟩
    rw [Front_eq hwf']
    rfl
  · obtain ⟨lb, hpb, hwf', _, _, _, _, _, hlen, _, _⟩ := PushBack_ok hwf key value
    refine ⟨lb, hpb, hwf', ?_, hlen⟩
    rw [Back_eq hwf']
    exact List.getLast?_concat _

theorem C9_push_never_fails_witness :
    WF (NewLRUList : LRUList Nat Nat) [] ∧
    (∃ lf, PushFront (NewLRUList : LRUList Nat Nat) 5 7 =
        some (some (NewLRUList : LRUList Nat Nat).nextId, lf) ∧
      WF lf ((NewLRUList : LRUList Nat Nat).nextId :: []) ∧
      Front lf = some (NewLRUList : LRUList Nat Nat).nextId ∧
      lf.len = (NewLRUList : LRUList Nat Nat).len + 1) :=
  by
  have hW : WF (NewLRUList : LRUList Nat Nat) [] := by decide
  exact ⟨hW, (C9_push_never_fails hW 5 7).1⟩

end WBL0
